import Mathlib

/-!
# Verification of the kid_shogi game engine

Shallow embedding of the `kid_shogi` Rust sources
(`src/kids_shogi.rs`, `src/strategy.rs`, `src/mcts.rs`) and proofs of the
frozen specification claims.

Conventions used throughout the embedding:
* Rust `String` values are modelled as `List Char`.
* Rust `f64` search statistics and evaluator scores are modelled as exact
  rationals (`ℚ`); transcendental functions (`exp`) and the random sampler
  are abstracted as explicit function parameters whose contracts appear as
  theorem hypotheses.
* A Rust panic (`unwrap`/`expect` on a missing value, out-of-range sample
  index) is modelled as the outer `none` of an `Option` result; the Rust
  function returning `Option::None` normally is the inner `none`.
* The 12-cell `ArrayVec` board is modelled as the total function
  `Fin 12 → Cell`; Rust indexing would panic out of bounds, and every call
  site in the Rust code indexes with an in-bounds point, so the
  out-of-bounds branch of `cellAt`/`setCells` below is dead code under the
  same conditions.
-/

namespace KS

/-- A board coordinate from `Point(usize, usize)`: column `x` in 0..2,
row `y` in 0..3 (row 0 is sente's home rank). -/
structure Point where
  x : Nat
  y : Nat
deriving DecidableEq, Repr

/-- `Point::swap_sides`. Rust computes `2 - x` / `3 - y` on `usize`
(panicking on underflow); all call sites pass in-bounds points, where
truncated `Nat` subtraction agrees. -/
def Point.swap_sides (p : Point) : Point := ⟨2 - p.x, 3 - p.y⟩

/-- `Point::is_within_boundaries`. -/
def Point.is_within_boundaries (p : Point) : Bool := p.x < 3 && p.y < 4

/-- `minus_with_boundaries` (u8 arithmetic modelled on `Nat`). -/
def minus_with_boundaries (a b high : Nat) : Option Nat :=
  if a < b then none
  else if high ≤ a - b then none
  else some (a - b)

/-- The five piece kinds. -/
inductive PieceKind where
  | Chicken
  | Elephant
  | Giraffe
  | Hen
  | Lion
deriving DecidableEq, Repr, Fintype

/-- `PieceKind::promote`. -/
def PieceKind.promote : PieceKind → PieceKind
  | .Chicken => .Hen
  | pk => pk

/-- `PieceKind::demote`. -/
def PieceKind.demote : PieceKind → PieceKind
  | .Hen => .Chicken
  | pk => pk

/-- `diff(a, b) = b - a` as a signed integer. -/
def diff (a b : Nat) : Int := (b : Int) - (a : Int)

/-- `PieceKind::is_valid_move` (sente frame). -/
def PieceKind.is_valid_move (pk : PieceKind) (f t : Point) : Bool :=
  let dx := diff f.x t.x
  let dy := diff f.y t.y
  match pk with
  | .Chicken => dx == 0 && dy == 1
  | .Elephant => dx.natAbs == 1 && dy.natAbs == 1
  | .Giraffe => (dx == 0 && dy.natAbs == 1) || (dy == 0 && dx.natAbs == 1)
  | .Lion => dx.natAbs ≤ 1 && dy.natAbs ≤ 1 && !(dx == 0 && dy == 0)
  | .Hen => (dy == 1 && dx.natAbs ≤ 1) || (dy == 0 && dx.natAbs == 1) || (dy == -1 && dx == 0)

/-- The movement delta table of `PieceKind::list_moves`. -/
def PieceKind.deltas : PieceKind → List (Int × Int)
  | .Chicken => [(0, 1)]
  | .Elephant => [(-1, -1), (-1, 1), (1, -1), (1, 1)]
  | .Giraffe => [(-1, 0), (0, -1), (0, 1), (1, 0)]
  | .Lion => [(-1, -1), (-1, 0), (-1, 1), (0, -1), (0, 1), (1, -1), (1, 0), (1, 1)]
  | .Hen => [(0, -1), (-1, 0), (1, 0), (-1, 1), (0, 1), (1, 1)]

/-- `PieceKind::list_moves`: apply each delta, keep in-bounds results. -/
def PieceKind.list_moves (pk : PieceKind) (f : Point) : List Point :=
  pk.deltas.filterMap (fun d =>
    let x := (f.x : Int) + d.1
    let y := (f.y : Int) + d.2
    if 0 ≤ x ∧ x < 3 ∧ 0 ≤ y ∧ y < 4 then some ⟨x.toNat, y.toNat⟩ else none)

/-- `PieceKind::index`. -/
def PieceKind.index : PieceKind → Nat
  | .Chicken => 0
  | .Elephant => 1
  | .Giraffe => 2
  | .Hen => 3
  | .Lion => 4

/-- `PieceKind::to_fen_char`. -/
def PieceKind.to_fen_char : PieceKind → Char
  | .Chicken => 'c'
  | .Elephant => 'e'
  | .Giraffe => 'g'
  | .Hen => 'h'
  | .Lion => 'l'

/-- `PieceKind::from_fen_char`. -/
def PieceKind.from_fen_char (c : Char) : Option PieceKind :=
  if c = 'c' then some .Chicken
  else if c = 'e' then some .Elephant
  else if c = 'g' then some .Giraffe
  else if c = 'h' then some .Hen
  else if c = 'l' then some .Lion
  else none

/-- The two players. -/
inductive Color where
  | Sente
  | Gote
deriving DecidableEq, Repr, Fintype

/-- `Color::opponent`. -/
def Color.opponent : Color → Color
  | .Sente => .Gote
  | .Gote => .Sente

/-- A board cell. -/
inductive Cell where
  | Piece (pk : PieceKind) (c : Color)
  | Empty
deriving DecidableEq, Repr

/-- A game position (`struct Position`); the fixed 12-cell array is the
total function on `Fin 12`. -/
structure Position where
  cells : Fin 12 → Cell
  sente_hand : List PieceKind
  gote_hand : List PieceKind
  current_player : Color

/-- `Position::c_to_p`. -/
def c_to_p (i : Fin 12) : Point := ⟨i.val % 3, i.val / 3⟩

/-- `Position::p_to_c` (as a raw `Nat`; in-bounds points map below 12). -/
def p_to_c (p : Point) : Nat := p.x + p.y * 3

/-- Read the cell addressed by a point. Rust `self.cells[p_to_c(p)]`
panics out of bounds; every call site is in-bounds. -/
def Position.cellAt (pos : Position) (p : Point) : Cell :=
  if h : p_to_c p < 12 then pos.cells ⟨p_to_c p, h⟩ else Cell.Empty

/-- Write the cell addressed by a point (same bounds remark as `cellAt`). -/
def setCells (cells : Fin 12 → Cell) (p : Point) (c : Cell) : Fin 12 → Cell :=
  if h : p_to_c p < 12 then Function.update cells ⟨p_to_c p, h⟩ c else cells

/-- `Position::find_all_pieces`. -/
def Position.find_all_pieces (pos : Position) (color : Color) : List (Point × PieceKind) :=
  (List.finRange 12).filterMap (fun i =>
    match pos.cells i with
    | Cell.Piece pk c => if c = color then some (c_to_p i, pk) else none
    | Cell.Empty => none)

/-- `take_piece`: remove the first occurrence of `pk` from the hand
(Rust removes at the first matching index). -/
def take_piece (hand : List PieceKind) (pk : PieceKind) : Option (List PieceKind) :=
  match hand with
  | [] => none
  | x :: xs => if x = pk then some xs else (take_piece xs pk).map (x :: ·)

/-- A move (`enum Move`). -/
inductive Move where
  | Step (f t : Point)
  | Drop (pk : PieceKind) (t : Point)
deriving DecidableEq, Repr

/-- `Move::swap_sides`. -/
def Move.swap_sides : Move → Move
  | .Step f t => .Step f.swap_sides t.swap_sides
  | .Drop pk t => .Drop pk t.swap_sides

/-- `Position::empty`. -/
def Position.empty : Position where
  cells := fun _ => Cell.Empty
  sente_hand := []
  gote_hand := []
  current_player := Color.Sente

/-- Flip the owner of a cell (the closure inside `Position::swap_sides`). -/
def flipCell : Cell → Cell
  | .Empty => .Empty
  | .Piece pk c => .Piece pk c.opponent

/-- The reversed board index: element `i` of the reversed 12-cell array is
element `11 - i` of the original. -/
def revIdx (i : Fin 12) : Fin 12 := ⟨11 - i.val, by omega⟩

/-- `Position::swap_sides`: reverse the cells, flip every owner, swap the
hands, pass the turn. -/
def Position.swap_sides (pos : Position) : Position where
  cells := fun i => flipCell (pos.cells (revIdx i))
  sente_hand := pos.gote_hand
  gote_hand := pos.sente_hand
  current_player := pos.current_player.opponent

/-- `Position::make_move_sente`. -/
def Position.make_move_sente (pos : Position) (mv : Move) : Option Position :=
  match mv with
  | .Step f t =>
    match pos.cellAt f with
    | .Piece pk .Sente =>
      if !pk.is_valid_move f t then none
      else
        let maybe_promoted := if t.y = 3 then pk.promote else pk
        match pos.cellAt t with
        | .Empty =>
          some { cells := setCells (setCells pos.cells t (.Piece maybe_promoted .Sente)) f .Empty
                 sente_hand := pos.sente_hand
                 gote_hand := pos.gote_hand
                 current_player := .Gote }
        | .Piece qk .Gote =>
          some { cells := setCells (setCells pos.cells t (.Piece maybe_promoted .Sente)) f .Empty
                 sente_hand := pos.sente_hand ++ [qk.demote]
                 gote_hand := pos.gote_hand
                 current_player := .Gote }
        | .Piece _ .Sente => none
    | _ => none
  | .Drop pk t =>
    match pos.cellAt t with
    | .Piece _ _ => none
    | .Empty =>
      match take_piece pos.sente_hand pk with
      | some new_hand =>
        some { cells := setCells pos.cells t (.Piece pk .Sente)
               sente_hand := new_hand
               gote_hand := pos.gote_hand
               current_player := .Gote }
      | none => none

/-- `Position::make_move_impl`. -/
def Position.make_move_impl (pos : Position) (mv : Move) : Option Position :=
  match pos.current_player with
  | .Sente => pos.make_move_sente mv
  | .Gote => (pos.swap_sides.make_move_sente mv.swap_sides).map Position.swap_sides

/-- `Position::is_winning_sente`. -/
def Position.is_winning_sente (pos : Position) : Bool :=
  if pos.sente_hand.any (· = PieceKind.Lion) then true
  else
    match (List.finRange 12).find? (fun i => pos.cells i = Cell.Piece .Lion .Sente) with
    | some i =>
      let our_lion_pos := c_to_p i
      if our_lion_pos.y = 3 then
        !((pos.find_all_pieces .Gote).any
          (fun q => q.2.is_valid_move q.1.swap_sides our_lion_pos.swap_sides))
      else false
    | none => false

/-- `Position::is_lost`. -/
def Position.is_lost (pos : Position) : Bool :=
  match pos.current_player with
  | .Gote => pos.is_winning_sente
  | .Sente => pos.swap_sides.is_winning_sente

/-- `Position::list_possible_moves_sente`. The Rust `HashSet` of distinct
hand kinds has unspecified iteration order; it is modelled by `dedup`
(the same set of elements, in first-occurrence order). -/
def Position.list_possible_moves_sente (pos : Position) : List Move :=
  let our_pieces := pos.find_all_pieces .Sente
  let our_pieces_loc := our_pieces.map Prod.fst
  let steps := our_pieces.flatMap (fun q =>
    ((q.2.list_moves q.1).filter (fun p => ¬ p ∈ our_pieces_loc)).map (Move.Step q.1))
  let uniq_drops := pos.sente_hand.dedup
  let empty_loc := (List.finRange 12).filterMap (fun i =>
    match pos.cells i with
    | Cell.Empty => some (c_to_p i)
    | _ => none)
  let drops := (uniq_drops.flatMap (fun pk => empty_loc.map (Move.Drop pk))).filter
    (fun mv => match mv with
      | Move.Drop .Chicken ⟨_, 3⟩ => false
      | _ => true)
  steps ++ drops

/-- `Position::list_possible_moves`. -/
def Position.list_possible_moves (pos : Position) : List Move :=
  match pos.current_player with
  | .Sente => pos.list_possible_moves_sente
  | .Gote => pos.swap_sides.list_possible_moves_sente.map Move.swap_sides

/-- The fixed initial position (`AbstractGame::initial`). -/
def Position.initial : Position where
  cells := fun i =>
    match i.val with
    | 0 => .Piece .Elephant .Sente
    | 1 => .Piece .Lion .Sente
    | 2 => .Piece .Giraffe .Sente
    | 4 => .Piece .Chicken .Sente
    | 7 => .Piece .Chicken .Gote
    | 9 => .Piece .Giraffe .Gote
    | 10 => .Piece .Lion .Gote
    | 11 => .Piece .Elephant .Gote
    | _ => .Empty
  sente_hand := []
  gote_hand := []
  current_player := .Sente

/-! ## Serialization (`to_fen` / `from_fen`) -/

/-- `Point::to_fen`: column letter then row digit. -/
def Point.to_fen (p : Point) : List Char :=
  [Char.ofNat (p.x + 'a'.toNat), Char.ofNat (p.y + '1'.toNat)]

/-- `Point::from_fen`. -/
def Point.from_fen (s : List Char) : Option Point :=
  match s with
  | [c0, c1] =>
    match minus_with_boundaries c0.toNat 'a'.toNat 3,
          minus_with_boundaries c1.toNat '1'.toNat 4 with
    | some x, some y => some ⟨x, y⟩
    | _, _ => none
  | _ => none

/-- `Move::to_fen`. -/
def Move.to_fen : Move → List Char
  | .Step f t => f.to_fen ++ t.to_fen
  | .Drop pk t => [pk.to_fen_char.toUpper, '*'] ++ t.to_fen

/-- `Move::from_fen`: a 4-character token; `*` in second place marks a drop. -/
def Move.from_fen (s : List Char) : Option Move :=
  match s with
  | [c0, c1, c2, c3] =>
    if c1 = '*' then
      match PieceKind.from_fen_char c0.toLower with
      | some pk => (Point.from_fen [c2, c3]).map (Move.Drop pk)
      | none => none
    else
      match Point.from_fen [c0, c1], Point.from_fen [c2, c3] with
      | some f, some t => some (Move.Step f t)
      | _, _ => none
  | _ => none

/-- FEN character of an owned piece: uppercase for sente, lowercase for gote. -/
def fenCharOf (pk : PieceKind) (c : Color) : Char :=
  match c with
  | .Sente => pk.to_fen_char.toUpper
  | .Gote => pk.to_fen_char

/-- Run-length encoding of one rank: the inner `x` loop of
`Position::to_fen` carrying the `empties` counter, with its final flush. -/
def rankChars : List Cell → Nat → List Char
  | [], e => if e > 0 then [Char.ofNat ('0'.toNat + e)] else []
  | Cell.Empty :: rest, e => rankChars rest (e + 1)
  | Cell.Piece pk c :: rest, e =>
    (if e > 0 then [Char.ofNat ('0'.toNat + e)] else []) ++ fenCharOf pk c :: rankChars rest 0

/-- The three cells of rank `y`, in file order. -/
def Position.rank (pos : Position) (y : Nat) : List Cell :=
  [pos.cellAt ⟨0, y⟩, pos.cellAt ⟨1, y⟩, pos.cellAt ⟨2, y⟩]

/-- The derived `Ord` on `PieceKind` is declaration order, i.e. `index`. -/
def pkLe (a b : PieceKind) : Prop := a.index ≤ b.index

instance : DecidableRel pkLe := fun _ _ => Nat.decLe _ _

/-- Rust `Vec::sort` on a hand: a sorted permutation under the derived order. -/
def sortHand (h : List PieceKind) : List PieceKind := List.insertionSort pkLe h

/-- `Position::to_fen`: ranks far-side first separated by `/`, the
side-to-move marker, then the sorted hand contents (or `-`). -/
def Position.to_fen (pos : Position) : List Char :=
  let board := rankChars (pos.rank 3) 0 ++ '/' :: rankChars (pos.rank 2) 0
    ++ '/' :: rankChars (pos.rank 1) 0 ++ '/' :: rankChars (pos.rank 0) 0
  let side : Char := match pos.current_player with | .Sente => 'b' | .Gote => 'w'
  let hand_chars := (sortHand pos.sente_hand).map (fun pk => pk.to_fen_char.toUpper)
    ++ (sortHand pos.gote_hand).map PieceKind.to_fen_char
  board ++ ' ' :: side :: ' ' :: (if hand_chars.isEmpty then ['-'] else hand_chars)

/-- Rust `str::split(sep)` on a character list. -/
def splitChar (sep : Char) : List Char → List (List Char)
  | [] => [[]]
  | c :: rest =>
    if c = sep then [] :: splitChar sep rest
    else
      match splitChar sep rest with
      | [] => [[c]]
      | g :: gs => (c :: g) :: gs

/-- The per-rank character loop of `Position::from_fen`: digits skip
columns, lowercase letters place gote pieces, uppercase letters place
sente pieces. An unrecognized uppercase letter is skipped without
advancing, mirroring the missing `else` branch in the Rust source. -/
def parseRankGo (y : Nat) : List Char → Nat → (Fin 12 → Cell) → Option (Fin 12 → Cell)
  | [], _, cells => some cells
  | c :: rest, x, cells =>
    if 3 ≤ x then none
    else if c.isDigit then parseRankGo y rest (x + (c.toNat - '0'.toNat)) cells
    else if c.isLower then
      match PieceKind.from_fen_char c with
      | some pk => parseRankGo y rest (x + 1) (setCells cells ⟨x, y⟩ (.Piece pk .Gote))
      | none => none
    else if c.isUpper then
      match PieceKind.from_fen_char c.toLower with
      | some pk => parseRankGo y rest (x + 1) (setCells cells ⟨x, y⟩ (.Piece pk .Sente))
      | none => parseRankGo y rest x cells
    else none

/-- The hand-character loop of `Position::from_fen`: lowercase letters
append to gote's hand, uppercase letters to sente's. -/
def parseHandGo : List Char → List PieceKind → List PieceKind →
    Option (List PieceKind × List PieceKind)
  | [], s, g => some (s, g)
  | c :: rest, s, g =>
    if c.isLower then
      match PieceKind.from_fen_char c with
      | some pk => parseHandGo rest s (g ++ [pk])
      | none => none
    else if c.isUpper then
      match PieceKind.from_fen_char c.toLower with
      | some pk => parseHandGo rest (s ++ [pk]) g
      | none => none
    else none

/-- `Position::from_fen`. -/
def Position.from_fen (fen : List Char) : Option Position :=
  match splitChar ' ' fen with
  | [boardS, sideS, handS] =>
    match splitChar '/' boardS with
    | [r3, r2, r1, r0] => do
      let cells0 ← parseRankGo 0 r0 0 (fun _ => Cell.Empty)
      let cells1 ← parseRankGo 1 r1 0 cells0
      let cells2 ← parseRankGo 2 r2 0 cells1
      let cells3 ← parseRankGo 3 r3 0 cells2
      let player ← if sideS = ['b'] then some Color.Sente
                   else if sideS = ['w'] then some Color.Gote
                   else none
      let hands ← if handS = ['-'] then some (([], []) : List PieceKind × List PieceKind)
                  else parseHandGo handS [] []
      some { cells := cells3
             sente_hand := hands.1
             gote_hand := hands.2
             current_player := player }
    | _ => none
  | _ => none

/-! ## The string-level `AbstractGame` interface of `Position` -/

/-- `AbstractGame::possible_moves`: tokens of the legal moves. -/
def Position.possible_moves (pos : Position) : List (List Char) :=
  pos.list_possible_moves.map Move.to_fen

/-- `AbstractGame::make_move`: parse the token, then apply it. -/
def Position.make_move (pos : Position) (s : List Char) : Option Position :=
  match Move.from_fen s with
  | some mv => pos.make_move_impl mv
  | none => none

/-- `AbstractGame::to_str`. -/
def Position.to_str (pos : Position) : List Char := pos.to_fen

/-- `AbstractGame::current_player` (0 = sente, 1 = gote). -/
def Position.current_player_int (pos : Position) : Int :=
  match pos.current_player with
  | .Sente => 0
  | .Gote => 1

/-! Sanity checks against the Rust unit tests. -/

example : Position.initial.to_fen = "gle/1c1/1C1/ELG b -".toList := by decide
example : Position.initial.possible_moves.length = 4 := by decide
example : (Move.from_fen "a1a2".toList) = some (Move.Step ⟨0, 0⟩ ⟨0, 1⟩) := by decide
example : (Move.from_fen "C*c2".toList) = some (Move.Drop .Chicken ⟨2, 1⟩) := by decide
example :
    (Position.from_fen "gl1/1e1/3/ELG b Cc".toList).map Position.to_fen
      = some "gl1/1e1/3/ELG b Cc".toList := by decide
example :
    ((Position.from_fen "l2/2h/2C/L2 b -".toList).bind
        (fun p => p.make_move "c2c3".toList)).map Position.to_fen
      = some "l2/2C/3/L2 w C".toList := by decide
example :
    ((Position.from_fen "l2/2C/3/L2 b -".toList).bind
        (fun p => p.make_move "c3c4".toList)).map Position.to_fen
      = some "l1H/3/3/L2 w -".toList := by decide
example :
    ((Position.from_fen "l2/G2/3/L2 b -".toList).bind
        (fun p => p.make_move "a3a4".toList)).map Position.is_lost = some true := by decide
example :
    ((Position.from_fen "l2/G1L/3/3 b -".toList).bind
        (fun p => p.make_move "c3c4".toList)).map Position.is_lost = some true := by decide
example :
    ((Position.from_fen "lg1/G1L/3/3 b -".toList).bind
        (fun p => p.make_move "c3c4".toList)).map Position.is_lost = some false := by decide
example :
    ((Position.from_fen "l2/G2/1e1/L2 w -".toList).bind
        (fun p => p.make_move "b2a1".toList)).map Position.is_lost = some true := by decide
example :
    (Position.from_fen "1l1/ge1/1C1/ELG b C".toList).map
        (fun p => p.possible_moves.length) = some 7 := by decide
example :
    (Position.from_fen "1l1/ge1/1C1/ELG w c".toList).map
        (fun p => p.possible_moves.length) = some 14 := by decide
example :
    (Position.from_fen "1l1/ge1/1C1/ELG w c".toList).map
        (fun p => p.possible_moves.contains "b3a2".toList
          && p.possible_moves.contains "C*c4".toList
          && !p.possible_moves.contains "C*a1".toList) = some true := by decide

/-! ## The generic strategy layer (`strategy.rs`) -/

/-- The slice of the `AbstractGame` trait used by the search layer. -/
structure GameOps (α : Type) where
  possible_moves : α → List (List Char)
  make_move : α → List Char → Option α
  to_str : α → List Char
  is_lost : α → Bool
  current_player : α → Int

/-- The `Evaluator` trait; `f64` scores modelled as rationals. -/
structure EvalOps (α : Type) where
  evaluate_position : α → ℚ
  saturation : ℚ

/-- The `GameOps` instance of the kids-shogi `Position`. -/
def kidsShogi : GameOps Position where
  possible_moves := Position.possible_moves
  make_move := Position.make_move
  to_str := Position.to_str
  is_lost := Position.is_lost
  current_player := Position.current_player_int

/-- `f64`-to-`i32` conversion (`as i32`): truncation toward zero,
saturating at the `i32` range. -/
def truncToI32 (q : ℚ) : Int :=
  let t : Int := if q < 0 then -((-q).floor) else q.floor
  max (-(2 ^ 31)) (min (2 ^ 31 - 1) t)

/-- The validity check of `WeightedIndex::new` from the `rand` crate
(an external collaborator), modelled from its documented contract: the
construction fails exactly when the list is empty, some weight is
negative, or the total weight is not positive. -/
def weightedIndexValid (ws : List Int) : Option Unit :=
  if ws ≠ [] ∧ (∀ w ∈ ws, 0 ≤ w) ∧ 0 < ws.sum then some () else none

/-- The per-move weights of `SoftMaxStrategy::choose_move`: negated child
score through the exponential, scaled by `1e6 / sum`, truncated to `i32`.
The `f64` exponential is the explicit parameter `expF`. `none` models the
`unwrap` panic when a listed move fails to apply. -/
def softmaxWeights {α : Type} (g : GameOps α) (ev : EvalOps α) (expF : ℚ → ℚ)
    (softness : ℚ) (pos : α) : Option (List Int) := do
  let values ← (g.possible_moves pos).mapM
    (fun mv => (g.make_move pos mv).map
      (fun q => expF (-(ev.evaluate_position q) * softness)))
  let sum := values.foldl (· + ·) 0
  pure (values.map (fun v => truncToI32 (v * 1000000 / sum)))

/-- `SoftMaxStrategy::choose_move`. `pick` abstracts the rng draw from
the `WeightedIndex` distribution. Outer `none` is a panic (failed
`unwrap`, or a sample index out of range); inner `none` is "no move". -/
def softmaxChooseMove {α : Type} (g : GameOps α) (ev : EvalOps α) (expF : ℚ → ℚ)
    (pick : List Int → Nat) (softness : ℚ) (pos : α) : Option (Option (List Char)) :=
  let moves := g.possible_moves pos
  if moves.isEmpty then some none
  else do
    let ws ← softmaxWeights g ev expF softness pos
    let _ ← weightedIndexValid ws
    let smpl := pick ws
    if h : smpl < moves.length then pure (some (moves.get ⟨smpl, h⟩)) else none

/-! ## The MCTS engine (`mcts.rs`) -/

/-- An MCTS node (`struct Node`); the `parents` set is a duplicate-free
list, the `children` map a list of (move, position-key) pairs. -/
structure Node where
  parents : List (List Char)
  evaluation : ℚ
  visits : Nat
  reward : ℚ
  children : List (List Char × List Char)
  is_populated : Bool

/-- The node table `HashMap<String, Node>`, as an association list. -/
abbrev Table := List (List Char × Node)

/-- `HashMap::get`. -/
def lookupNode : Table → List Char → Option Node
  | [], _ => none
  | (k, n) :: rest, key => if k = key then some n else lookupNode rest key

/-- `HashMap::get_mut` followed by a mutation of the found node. -/
def updateNodeAt (t : Table) (key : List Char) (f : Node → Node) : Table :=
  t.map (fun kn => if kn.1 = key then (kn.1, f kn.2) else kn)

/-- `clamp` from `mcts.rs`. -/
def clamp (v : ℚ) : ℚ := if v < -1 then -1 else if 1 < v then 1 else v

/-- `MCTSState::make_node`. (Exact-rational division by a zero
saturation differs from `f64`; no claim examines the stored value.) -/
def makeNode {α} (g : GameOps α) (ev : EvalOps α) (t : Table) (pos : α)
    (parent : Option α) : Table :=
  let pos_str := g.to_str pos
  match lookupNode t pos_str with
  | some _ =>
    match parent with
    | some p => updateNodeAt t pos_str (fun n =>
        if (g.to_str p) ∈ n.parents then n
        else { n with parents := n.parents ++ [g.to_str p] })
    | none => t
  | none =>
    t ++ [(pos_str,
      { parents := (parent.map g.to_str).toList
        evaluation := clamp (ev.evaluate_position pos / ev.saturation)
        visits := 0
        reward := 0
        children := []
        is_populated := false })]

/-- `MCTSState::populate_children`; `none` models the `expect`/`unwrap`
panics (missing parent node, a listed move failing to apply). -/
def populateChildren {α} (g : GameOps α) (ev : EvalOps α) (t : Table) (pos : α) :
    Option Table := do
  let pos_str := g.to_str pos
  let parent_node ← lookupNode t pos_str
  if parent_node.is_populated then pure t
  else do
    let moves := g.possible_moves pos
    let r ← moves.foldlM (fun acc mv => do
        let new_pos ← g.make_move pos mv
        let t2 := makeNode g ev acc.1 new_pos (some pos)
        pure (t2, acc.2 ++ [(mv, g.to_str new_pos)]))
      ((t, []) : Table × List (List Char × List Char))
    pure (updateNodeAt r.1 pos_str (fun n =>
      { n with children := r.2, is_populated := true }))

/-- `MCTSState::update_node`; `none` is the "node must exist" panic. -/
def updateNode (t : Table) (key : List Char) (reward : ℚ) : Option Table :=
  match lookupNode t key with
  | some _ => some (updateNodeAt t key (fun n =>
      { n with visits := n.visits + 1, reward := n.reward + reward }))
  | none => none

/-- Rust `Iterator::min_by` (the first minimum wins) over
(move, reward) pairs, using the total order on rewards. -/
def minByFirst : List (List Char × ℚ) → Option (List Char × ℚ)
  | [] => none
  | x :: xs => some (xs.foldl (fun best y => if y.2 < best.2 then y else best) x)

/-- The (move, child reward) pairs examined by `choose_best_by_reward`;
`none` models its `unwrap` panics (a listed move failing to apply, or
the child's node missing from the table). -/
def childRewards {α} (g : GameOps α) (t : Table) (pos : α) :
    Option (List (List Char × ℚ)) :=
  (g.possible_moves pos).mapM (fun mv => do
    let q ← g.make_move pos mv
    let n ← lookupNode t (g.to_str q)
    pure (mv, n.reward))

/-- `MCTSState::choose_best_by_reward`. -/
def chooseBestByReward {α} (g : GameOps α) (t : Table) (pos : α) :
    Option (Option (List Char)) :=
  (childRewards g t pos).map (fun pairs => (minByFirst pairs).map Prod.fst)

/-- The walk loop of `walk_once` (`while track.len() < max_depth`), with
`fuel = max_depth - track.len()`. The softmax sampling step (which owns
the rng) is abstracted as `policy`; `none` is a panic. -/
def walkLoop {α} (g : GameOps α) (ev : EvalOps α)
    (policy : Table → α → Option (List Char)) :
    Nat → Table → α → List α → Option (Table × List α × α)
  | 0, t, pos, track => some (t, track, pos)
  | fuel + 1, t, pos, track =>
    if g.is_lost pos then some (t, track, pos)
    else do
      let t1 ← populateChildren g ev t pos
      match policy t1 pos with
      | some choice => do
        let pos1 ← g.make_move pos choice
        walkLoop g ev policy fuel t1 pos1 (track ++ [pos])
      | none => some (t1, track, pos)

/-- `MonteCarloTreeSearchStrategy::walk_once` (`max_depth` is fixed
at 8): walk, then evaluate the final position and back-propagate along
the reversed track with a sign flip at each turn change. -/
def walkOnce {α} (g : GameOps α) (ev : EvalOps α)
    (policy : Table → α → Option (List Char)) (t : Table) (start : α) :
    Option Table := do
  let r ← walkLoop g ev policy 8 t start []
  let player_final := g.current_player r.2.2
  let ev_final := ev.evaluate_position r.2.2 / ev.saturation
  (r.2.1 ++ [r.2.2]).reverse.foldlM (fun s p =>
    updateNode s (g.to_str p)
      (if g.current_player p = player_final then ev_final else -ev_final)) r.1

/-- The node table produced by the playouts of one `choose_move` call:
the root node followed by `num_tries - 1` walks (`for _ in 1..num_tries`). -/
def playoutsTable {α} (g : GameOps α) (ev : EvalOps α)
    (policy : Table → α → Option (List Char)) (num_tries : Nat) (pos : α) :
    Option Table :=
  (List.range (num_tries - 1)).foldlM (fun t _ => walkOnce g ev policy t pos)
    (makeNode g ev [] pos none)

/-- `MonteCarloTreeSearchStrategy::choose_move`. -/
def mctsChooseMove {α} (g : GameOps α) (ev : EvalOps α)
    (policy : Table → α → Option (List Char)) (num_tries : Nat) (pos : α) :
    Option (Option (List Char)) := do
  let st ← playoutsTable g ev policy num_tries pos
  chooseBestByReward g st pos

/-! ## Coordinate and swap helper lemmas -/

theorem flipCell_flipCell (c : Cell) : flipCell (flipCell c) = c := by
  cases c with
  | Empty => rfl
  | Piece pk col => cases col <;> rfl

theorem revIdx_revIdx (i : Fin 12) : revIdx (revIdx i) = i := by
  rcases i with ⟨v, hv⟩
  simp only [revIdx, Fin.mk.injEq]
  omega

theorem opponent_opponent (c : Color) : c.opponent.opponent = c := by
  cases c <;> rfl

theorem p_to_c_c_to_p (i : Fin 12) : p_to_c (c_to_p i) = i.val := by
  rcases i with ⟨v, hv⟩
  simp only [p_to_c, c_to_p]
  omega

theorem c_to_p_within (i : Fin 12) : (c_to_p i).x < 3 ∧ (c_to_p i).y < 4 := by
  rcases i with ⟨v, hv⟩
  simp only [c_to_p]
  omega

theorem c_to_p_of_p_to_c (pt : Point) (hx : pt.x < 3) (h : p_to_c pt < 12) :
    c_to_p ⟨p_to_c pt, h⟩ = pt := by
  rcases pt with ⟨x, y⟩
  simp only [p_to_c, c_to_p, Point.mk.injEq] at *
  omega

theorem p_to_c_lt (pt : Point) (hx : pt.x < 3) (hy : pt.y < 4) : p_to_c pt < 12 := by
  simp only [p_to_c]
  omega

theorem cellAt_c_to_p (pos : Position) (i : Fin 12) : pos.cellAt (c_to_p i) = pos.cells i := by
  have h : p_to_c (c_to_p i) = i.val := p_to_c_c_to_p i
  simp only [Position.cellAt, h, i.isLt, dif_pos, Fin.eta]

/-- C10: `Position::swap_sides` is an involution: applying it twice
returns the exact same position (board cells, both hands, and player to
move), so the perspective normalization is lossless. -/
theorem C10_swap_sides_involution (p : Position) : p.swap_sides.swap_sides = p := by
  cases p with
  | mk cells sh gh cp =>
    simp only [Position.swap_sides, Position.mk.injEq]
    refine ⟨?_, trivial, trivial, opponent_opponent cp⟩
    funext i
    simp only [revIdx_revIdx, flipCell_flipCell]

/-! ## Membership characterizations of the move generator's pieces -/

theorem mem_find_all_pieces {pos : Position} {color : Color} {pt : Point} {pk : PieceKind} :
    (pt, pk) ∈ pos.find_all_pieces color ↔
      pt.x < 3 ∧ pt.y < 4 ∧ pos.cellAt pt = Cell.Piece pk color := by
  simp only [Position.find_all_pieces, List.mem_filterMap, List.mem_finRange, true_and]
  constructor
  · rintro ⟨i, hi⟩
    cases hcell : pos.cells i with
    | Piece pk' c' =>
      rw [hcell] at hi
      simp only [Option.ite_none_right_eq_some, Option.some.injEq, Prod.mk.injEq] at hi
      obtain ⟨hc, hpt, hpk⟩ := hi
      subst hc; subst hpt; subst hpk
      exact ⟨(c_to_p_within i).1, (c_to_p_within i).2, by rw [cellAt_c_to_p, hcell]⟩
    | Empty =>
      rw [hcell] at hi
      simp at hi
  · rintro ⟨hx, hy, hcell⟩
    refine ⟨⟨p_to_c pt, p_to_c_lt pt hx hy⟩, ?_⟩
    have hc : pos.cells ⟨p_to_c pt, p_to_c_lt pt hx hy⟩ = Cell.Piece pk color := by
      rw [← cellAt_c_to_p, c_to_p_of_p_to_c pt hx]
      exact hcell
    simp [hc, c_to_p_of_p_to_c pt hx]

theorem mem_empty_cells {pos : Position} {pt : Point} :
    pt ∈ (List.finRange 12).filterMap (fun i =>
        match pos.cells i with
        | Cell.Empty => some (c_to_p i)
        | _ => none) ↔ pt.x < 3 ∧ pt.y < 4 ∧ pos.cellAt pt = Cell.Empty := by
  simp only [List.mem_filterMap, List.mem_finRange, true_and]
  constructor
  · rintro ⟨i, hi⟩
    cases hcell : pos.cells i with
    | Piece pk' c' =>
      rw [hcell] at hi
      simp at hi
    | Empty =>
      rw [hcell] at hi
      simp only [Option.some.injEq] at hi
      subst hi
      exact ⟨(c_to_p_within i).1, (c_to_p_within i).2, by rw [cellAt_c_to_p, hcell]⟩
  · rintro ⟨hx, hy, hcell⟩
    refine ⟨⟨p_to_c pt, p_to_c_lt pt hx hy⟩, ?_⟩
    have hc : pos.cells ⟨p_to_c pt, p_to_c_lt pt hx hy⟩ = Cell.Empty := by
      rw [← cellAt_c_to_p, c_to_p_of_p_to_c pt hx]
      exact hcell
    rw [hc, c_to_p_of_p_to_c pt hx]

theorem mem_list_moves_within {pk : PieceKind} {f q : Point} (h : q ∈ pk.list_moves f) :
    q.x < 3 ∧ q.y < 4 := by
  simp only [PieceKind.list_moves, List.mem_filterMap] at h
  obtain ⟨d, _, hq⟩ := h
  split_ifs at hq with hcond
  · obtain ⟨h1, h2, h3, h4⟩ := hcond
    cases hq
    constructor <;> simp only <;> omega

/-- The per-delta form of the movement predicate (a proof-side helper for
relating `list_moves` to `is_valid_move`). -/
def validDelta (pk : PieceKind) (d : Int × Int) : Bool :=
  let dx := d.1
  let dy := d.2
  match pk with
  | .Chicken => dx == 0 && dy == 1
  | .Elephant => dx.natAbs == 1 && dy.natAbs == 1
  | .Giraffe => (dx == 0 && dy.natAbs == 1) || (dy == 0 && dx.natAbs == 1)
  | .Lion => dx.natAbs ≤ 1 && dy.natAbs ≤ 1 && !(dx == 0 && dy == 0)
  | .Hen => (dy == 1 && dx.natAbs ≤ 1) || (dy == 0 && dx.natAbs == 1) || (dy == -1 && dx == 0)

theorem deltas_validDelta : ∀ pk : PieceKind, ∀ d ∈ pk.deltas, validDelta pk d = true := by
  decide

theorem valid_of_delta {pk : PieceKind} {f q : Point} {dx dy : Int}
    (hv : validDelta pk (dx, dy) = true)
    (hqx : (q.x : ℤ) = f.x + dx) (hqy : (q.y : ℤ) = f.y + dy) :
    pk.is_valid_move f q = true := by
  have hdx : diff f.x q.x = dx := by simp only [diff]; omega
  have hdy : diff f.y q.y = dy := by simp only [diff]; omega
  cases pk <;> simpa only [PieceKind.is_valid_move, validDelta, hdx, hdy] using hv

theorem valid_of_mem_list_moves {pk : PieceKind} {f q : Point} (h : q ∈ pk.list_moves f) :
    pk.is_valid_move f q = true := by
  simp only [PieceKind.list_moves, List.mem_filterMap] at h
  obtain ⟨d, hd, hq⟩ := h
  split_ifs at hq with hcond
  · obtain ⟨h1, h2, h3, h4⟩ := hcond
    cases hq
    exact valid_of_delta (deltas_validDelta pk d hd)
      (by simp only; omega) (by simp only; omega)

theorem flipCell_eq_empty {c : Cell} : flipCell c = Cell.Empty ↔ c = Cell.Empty := by
  cases c <;> simp [flipCell]

theorem flipCell_eq_piece {c : Cell} {pk : PieceKind} {col : Color} :
    flipCell c = Cell.Piece pk col ↔ c = Cell.Piece pk col.opponent := by
  cases c with
  | Empty => simp [flipCell]
  | Piece pk' c' => cases c' <;> cases col <;> simp [flipCell, Color.opponent]

theorem swap_sides_within {pt : Point} (hx : pt.x < 3) (hy : pt.y < 4) :
    pt.swap_sides.x < 3 ∧ pt.swap_sides.y < 4 := by
  simp only [Point.swap_sides]
  omega

theorem point_swap_swap {pt : Point} (hx : pt.x < 3) (hy : pt.y < 4) :
    pt.swap_sides.swap_sides = pt := by
  rcases pt with ⟨x, y⟩
  simp only [Point.swap_sides, Point.mk.injEq] at *
  omega

theorem cellAt_swap_sides (pos : Position) (pt : Point) (hx : pt.x < 3) (hy : pt.y < 4) :
    pos.swap_sides.cellAt pt = flipCell (pos.cellAt pt.swap_sides) := by
  have h1 : p_to_c pt < 12 := p_to_c_lt pt hx hy
  have h2 : p_to_c pt.swap_sides < 12 := by
    simp only [Point.swap_sides, p_to_c]
    omega
  have h3 : revIdx ⟨p_to_c pt, h1⟩ = ⟨p_to_c pt.swap_sides, h2⟩ := by
    simp only [revIdx, Point.swap_sides, p_to_c, Fin.mk.injEq]
    omega
  simp only [Position.cellAt, Position.swap_sides, h1, h2, dif_pos, h3]

/-- Decomposition of membership in `list_possible_moves_sente`: a listed
move is a Step of an own piece along its geometry to a cell not holding
an own piece, or a Drop of a hand piece onto an empty cell. -/
theorem mem_moves_sente {pos : Position} {mv : Move}
    (h : mv ∈ pos.list_possible_moves_sente) :
    (∃ f t pk, mv = .Step f t ∧ (f, pk) ∈ pos.find_all_pieces .Sente ∧
      t ∈ pk.list_moves f ∧ ¬ t ∈ (pos.find_all_pieces .Sente).map Prod.fst) ∨
    (∃ pk t, mv = .Drop pk t ∧ pk ∈ pos.sente_hand ∧
      t.x < 3 ∧ t.y < 4 ∧ pos.cellAt t = Cell.Empty) := by
  simp only [Position.list_possible_moves_sente, List.mem_append] at h
  rcases h with h | h
  · left
    simp only [List.mem_flatMap, List.mem_map, List.mem_filter, decide_not,
      Bool.not_eq_eq_eq_not, Bool.not_true, decide_eq_false_iff_not] at h
    obtain ⟨⟨f, pk⟩, hfp, t, ⟨htm, htl⟩, rfl⟩ := h
    exact ⟨f, t, pk, rfl, hfp, htm, fun hmem => htl (by simpa using hmem)⟩
  · right
    have h' := (List.mem_filter.1 h).1
    simp only [List.mem_flatMap, List.mem_map] at h'
    obtain ⟨pk, hpk, t, ht, rfl⟩ := h'
    have he := mem_empty_cells.1 ht
    exact ⟨pk, t, rfl, List.mem_dedup.1 hpk, he.1, he.2.1, he.2.2⟩

/-- C8: the list returned by the move generator contains no Step whose
destination holds a piece of the side to move, and no Drop whose
destination holds any piece at all. -/
theorem C8_move_targets (p : Position) (mv : Move) (h : mv ∈ p.list_possible_moves) :
    (∀ f t, mv = .Step f t → ∀ pk, p.cellAt t ≠ .Piece pk p.current_player) ∧
    (∀ pk t, mv = .Drop pk t → p.cellAt t = .Empty) := by
  cases hcp : p.current_player with
  | Sente =>
    have hs : mv ∈ p.list_possible_moves_sente := by
      simpa only [Position.list_possible_moves, hcp] using h
    rcases mem_moves_sente hs with ⟨f, t, pk, rfl, hfp, htm, htl⟩ |
      ⟨pk, t, rfl, _, hx, hy, hempty⟩
    · refine ⟨?_, fun pk' t' heq => Move.noConfusion heq⟩
      rintro f' t' heq pk' hcell
      injection heq with h1 h2
      subst h1; subst h2
      have hw := mem_list_moves_within htm
      exact htl (List.mem_map.2 ⟨(t, pk'),
        mem_find_all_pieces.2 ⟨hw.1, hw.2, hcell⟩, rfl⟩)
    · refine ⟨fun f' t' heq => Move.noConfusion heq, ?_⟩
      rintro pk' t' heq
      injection heq with h1 h2
      subst h1; subst h2
      exact hempty
  | Gote =>
    have hs : mv ∈ (p.swap_sides.list_possible_moves_sente).map Move.swap_sides := by
      simpa only [Position.list_possible_moves, hcp] using h
    obtain ⟨m', hm', rfl⟩ := List.mem_map.1 hs
    rcases mem_moves_sente hm' with ⟨f, t, pk, rfl, hfp, htm, htl⟩ |
      ⟨pk, t, rfl, _, hx, hy, hempty⟩
    · refine ⟨?_, fun pk' t' heq => by
        simp only [Move.swap_sides] at heq
        exact Move.noConfusion heq⟩
      rintro f' t' heq pk' hcell
      simp only [Move.swap_sides] at heq
      injection heq with h1 h2
      subst h1; subst h2
      have hw := mem_list_moves_within htm
      have htr := cellAt_swap_sides p t hw.1 hw.2
      rw [hcell] at htr
      refine htl (List.mem_map.2 ⟨(t, pk'),
        mem_find_all_pieces.2 ⟨hw.1, hw.2, ?_⟩, rfl⟩)
      rw [htr]
      rfl
    · refine ⟨fun f' t' heq => by
        simp only [Move.swap_sides] at heq
        exact Move.noConfusion heq, ?_⟩
      rintro pk' t' heq
      simp only [Move.swap_sides] at heq
      injection heq with h1 h2
      subst h1; subst h2
      have htr := cellAt_swap_sides p t hx hy
      rw [hempty] at htr
      exact flipCell_eq_empty.1 htr.symm

/-- Witness for C8 at the initial position and the listed move `b1a2`. -/
theorem C8_move_targets_witness :
    Position.initial.cellAt ⟨0, 1⟩ ≠ Cell.Piece .Lion Position.initial.current_player :=
  (C8_move_targets Position.initial (Move.Step ⟨1, 0⟩ ⟨0, 1⟩) (by decide)).1
    ⟨1, 0⟩ ⟨0, 1⟩ rfl .Lion

/-! ## C9: every generated move token parses and applies -/

/-- All points of a move are in bounds. -/
def Move.within : Move → Prop
  | .Step f t => f.x < 3 ∧ f.y < 4 ∧ t.x < 3 ∧ t.y < 4
  | .Drop _ t => t.x < 3 ∧ t.y < 4

theorem move_fen_roundtrip {mv : Move} (h : mv.within) :
    Move.from_fen mv.to_fen = some mv := by
  cases mv with
  | Step f t =>
    rcases f with ⟨fx, fy⟩
    rcases t with ⟨tx, ty⟩
    obtain ⟨h1, h2, h3, h4⟩ := h
    interval_cases fx <;> interval_cases fy <;> interval_cases tx <;>
      interval_cases ty <;> decide
  | Drop pk t =>
    rcases t with ⟨tx, ty⟩
    obtain ⟨h1, h2⟩ := h
    cases pk <;> interval_cases tx <;> interval_cases ty <;> decide

theorem mem_moves_sente_within {pos : Position} {mv : Move}
    (h : mv ∈ pos.list_possible_moves_sente) : mv.within := by
  rcases mem_moves_sente h with ⟨f, t, pk, rfl, hfp, htm, _⟩ |
    ⟨pk, t, rfl, _, hx, hy, _⟩
  · have hf := mem_find_all_pieces.1 hfp
    have ht := mem_list_moves_within htm
    exact ⟨hf.1, hf.2.1, ht.1, ht.2⟩
  · exact ⟨hx, hy⟩

theorem within_swap {mv : Move} (h : mv.within) : mv.swap_sides.within := by
  cases mv with
  | Step f t =>
    obtain ⟨h1, h2, h3, h4⟩ := h
    exact ⟨(swap_sides_within h1 h2).1, (swap_sides_within h1 h2).2,
      (swap_sides_within h3 h4).1, (swap_sides_within h3 h4).2⟩
  | Drop pk t =>
    obtain ⟨h1, h2⟩ := h
    exact ⟨(swap_sides_within h1 h2).1, (swap_sides_within h1 h2).2⟩

theorem move_swap_swap {mv : Move} (h : mv.within) : mv.swap_sides.swap_sides = mv := by
  cases mv with
  | Step f t =>
    obtain ⟨h1, h2, h3, h4⟩ := h
    simp only [Move.swap_sides, point_swap_swap h1 h2, point_swap_swap h3 h4]
  | Drop pk t =>
    obtain ⟨h1, h2⟩ := h
    simp only [Move.swap_sides, point_swap_swap h1 h2]

theorem mem_moves_within {pos : Position} {mv : Move}
    (h : mv ∈ pos.list_possible_moves) : mv.within := by
  cases hcp : pos.current_player with
  | Sente =>
    exact mem_moves_sente_within (by
      simpa only [Position.list_possible_moves, hcp] using h)
  | Gote =>
    have hs : mv ∈ (pos.swap_sides.list_possible_moves_sente).map Move.swap_sides := by
      simpa only [Position.list_possible_moves, hcp] using h
    obtain ⟨m', hm', rfl⟩ := List.mem_map.1 hs
    exact within_swap (mem_moves_sente_within hm')

theorem take_piece_isSome {hand : List PieceKind} {pk : PieceKind}
    (h : pk ∈ hand) : (take_piece hand pk).isSome = true := by
  induction hand with
  | nil => cases h
  | cons x xs ih =>
    by_cases hx : x = pk
    · simp [take_piece, hx]
    · have : pk ∈ xs := by
        rcases List.mem_cons.1 h with h1 | h1
        · exact absurd h1.symm hx
        · exact h1
      have := ih this
      rcases htp : take_piece xs pk with _ | h'
      · rw [htp] at this
        simp at this
      · simp [take_piece, hx, htp]

theorem make_move_sente_of_mem {pos : Position} {mv : Move}
    (h : mv ∈ pos.list_possible_moves_sente) :
    (pos.make_move_sente mv).isSome = true := by
  rcases mem_moves_sente h with ⟨f, t, pk, rfl, hfp, htm, htl⟩ |
    ⟨pk, t, rfl, hpk, hx, hy, hempty⟩
  · have hcellf := (mem_find_all_pieces.1 hfp).2.2
    have hvalid := valid_of_mem_list_moves htm
    have hw := mem_list_moves_within htm
    rcases hcellt : pos.cellAt t with ⟨qk, qc⟩ | _
    · cases qc with
      | Sente =>
        exact absurd (List.mem_map.2 ⟨(t, qk),
          mem_find_all_pieces.2 ⟨hw.1, hw.2, hcellt⟩, rfl⟩) htl
      | Gote => simp [Position.make_move_sente, hcellf, hvalid, hcellt]
    · simp [Position.make_move_sente, hcellf, hvalid, hcellt]
  · have hsome := take_piece_isSome hpk
    rcases htp : take_piece pos.sente_hand pk with _ | h'
    · rw [htp] at hsome
      simp at hsome
    · simp [Position.make_move_sente, hempty, htp]

theorem possible_moves_apply (p : Position) (s : List Char)
    (hs : s ∈ p.possible_moves) : (p.make_move s).isSome = true := by
  simp only [Position.possible_moves, List.mem_map] at hs
  obtain ⟨mv, hmv, rfl⟩ := hs
  have hwithin : mv.within := mem_moves_within hmv
  rw [Position.make_move, move_fen_roundtrip hwithin]
  cases hcp : p.current_player with
  | Sente =>
    have hmem : mv ∈ p.list_possible_moves_sente := by
      simpa only [Position.list_possible_moves, hcp] using hmv
    simpa only [Position.make_move_impl, hcp] using make_move_sente_of_mem hmem
  | Gote =>
    have hs' : mv ∈ (p.swap_sides.list_possible_moves_sente).map Move.swap_sides := by
      simpa only [Position.list_possible_moves, hcp] using hmv
    obtain ⟨m', hm', rfl⟩ := List.mem_map.1 hs'
    have hswap : m'.swap_sides.swap_sides = m' :=
      move_swap_swap (mem_moves_sente_within hm')
    have hsucc := make_move_sente_of_mem hm'
    simp only [Position.make_move_impl, hcp, hswap]
    rcases hmk : p.swap_sides.make_move_sente m' with _ | q
    · rw [hmk] at hsucc
      simp at hsucc
    · simp

/-- C9: every token produced by `possible_moves` parses back and is
accepted by `make_move` — the `make_move(..).unwrap()` calls inside the
MCTS engine cannot fail on generator output. -/
theorem C9_generated_moves_apply (p : Position) (s : List Char)
    (hs : s ∈ p.possible_moves) : (p.make_move s).isSome = true :=
  possible_moves_apply p s hs

/-- Witness for C9 at the initial position and its generated token `b1a2`. -/
theorem C9_generated_moves_apply_witness :
    (Position.initial.make_move "b1a2".toList).isSome = true :=
  C9_generated_moves_apply Position.initial "b1a2".toList (by decide)

/-! ## C5: piece conservation -/

instance : DecidableEq Position := fun p q =>
  if h1 : p.cells = q.cells then
    if h2 : p.sente_hand = q.sente_hand then
      if h3 : p.gote_hand = q.gote_hand then
        if h4 : p.current_player = q.current_player then
          isTrue (by cases p; cases q; simp_all)
        else isFalse (fun h => h4 (by rw [h]))
      else isFalse (fun h => h3 (by rw [h]))
    else isFalse (fun h => h2 (by rw [h]))
  else isFalse (fun h => h1 (by rw [h]))

/-- 1 for an occupied cell, 0 for an empty one. -/
def cellWeight : Cell → Nat
  | .Empty => 0
  | .Piece _ _ => 1

/-- Total number of pieces across the board and both hands. -/
def Position.piece_count (pos : Position) : Nat :=
  (∑ i : Fin 12, cellWeight (pos.cells i)) + pos.sente_hand.length + pos.gote_hand.length

theorem sum_cellWeight_update (h : Fin 12 → Cell) (j : Fin 12) (v : Cell) :
    (∑ i : Fin 12, cellWeight (Function.update h j v i)) + cellWeight (h j)
      = (∑ i : Fin 12, cellWeight (h i)) + cellWeight v := by
  have e1 : (∑ i : Fin 12, cellWeight (Function.update h j v i))
      = cellWeight v + ∑ i ∈ Finset.univ.erase j, cellWeight (h i) := by
    rw [← Finset.add_sum_erase _ (fun i => cellWeight (Function.update h j v i))
      (Finset.mem_univ j)]
    congr 1
    · rw [Function.update_same]
    · refine Finset.sum_congr rfl (fun i hi => ?_)
      rw [Function.update_noteq (Finset.ne_of_mem_erase hi)]
  have e2 : (∑ i : Fin 12, cellWeight (h i))
      = cellWeight (h j) + ∑ i ∈ Finset.univ.erase j, cellWeight (h i) :=
    (Finset.add_sum_erase _ _ (Finset.mem_univ j)).symm
  omega

theorem setCells_eq_update (cells : Fin 12 → Cell) (pt : Point) (c : Cell)
    (h : p_to_c pt < 12) :
    setCells cells pt c = Function.update cells ⟨p_to_c pt, h⟩ c := dif_pos h

theorem take_piece_length {hand h' : List PieceKind} {pk : PieceKind}
    (h : take_piece hand pk = some h') : h'.length + 1 = hand.length := by
  induction hand generalizing h' with
  | nil => exact absurd h (by simp [take_piece])
  | cons x xs ih =>
    by_cases hx : x = pk
    · rw [take_piece, if_pos hx] at h
      injection h with h
      subst h
      simp
    · rw [take_piece, if_neg hx] at h
      rcases htp : take_piece xs pk with _ | h''
      · rw [htp] at h
        exact absurd h (by simp)
      · rw [htp] at h
        injection h with h
        subst h
        simpa using ih htp

theorem cellWeight_flip (c : Cell) : cellWeight (flipCell c) = cellWeight c := by
  cases c <;> rfl

theorem swap_sides_piece_count (pos : Position) :
    pos.swap_sides.piece_count = pos.piece_count := by
  have hsum : (∑ i : Fin 12, cellWeight (flipCell (pos.cells (revIdx i))))
      = ∑ i : Fin 12, cellWeight (pos.cells i) := by
    have hb : Function.Bijective revIdx :=
      Function.Involutive.bijective revIdx_revIdx
    calc (∑ i : Fin 12, cellWeight (flipCell (pos.cells (revIdx i))))
        = ∑ i : Fin 12, cellWeight (pos.cells (revIdx i)) := by
          refine Finset.sum_congr rfl (fun i _ => cellWeight_flip _)
      _ = ∑ i : Fin 12, cellWeight (pos.cells i) :=
          Fintype.sum_bijective revIdx hb _ _ (fun i => rfl)
  simp only [Position.piece_count, Position.swap_sides, hsum]
  omega

theorem make_move_sente_piece_count {pos q : Position} {mv : Move} (hw : mv.within)
    (h : pos.make_move_sente mv = some q) : q.piece_count = pos.piece_count := by
  cases mv with
  | Step f t =>
    obtain ⟨hfx, hfy, htx, hty⟩ := hw
    have hf12 : p_to_c f < 12 := p_to_c_lt f hfx hfy
    have ht12 : p_to_c t < 12 := p_to_c_lt t htx hty
    simp only [Position.make_move_sente] at h
    split at h
    case _ pk heqf =>
      have hcf' : pos.cells ⟨p_to_c f, hf12⟩ = Cell.Piece pk .Sente := by
        rw [← heqf, Position.cellAt, dif_pos hf12]
      cases hvalid : pk.is_valid_move f t with
      | false =>
        rw [hvalid] at h
        exact absurd h (by simp)
      | true =>
        rw [hvalid, if_neg (by simp)] at h
        split at h
        case _ heqt =>
          -- destination empty
          injection h with h
          subst h
          have hct' : pos.cells ⟨p_to_c t, ht12⟩ = Cell.Empty := by
            rw [← heqt, Position.cellAt, dif_pos ht12]
          simp only [Position.piece_count,
            setCells_eq_update _ t _ ht12, setCells_eq_update _ f _ hf12]
          have s1 := sum_cellWeight_update pos.cells ⟨p_to_c t, ht12⟩
            (Cell.Piece (if t.y = 3 then pk.promote else pk) .Sente)
          have s2 := sum_cellWeight_update
            (Function.update pos.cells ⟨p_to_c t, ht12⟩
              (Cell.Piece (if t.y = 3 then pk.promote else pk) .Sente))
            ⟨p_to_c f, hf12⟩ Cell.Empty
          have hAf : cellWeight (Function.update pos.cells ⟨p_to_c t, ht12⟩
              (Cell.Piece (if t.y = 3 then pk.promote else pk) .Sente)
              ⟨p_to_c f, hf12⟩) = 1 := by
            by_cases hft : (⟨p_to_c f, hf12⟩ : Fin 12) = ⟨p_to_c t, ht12⟩
            · rw [hft, Function.update_same]
              rfl
            · rw [Function.update_noteq hft, hcf']
              rfl
          rw [hct'] at s1
          rw [hAf] at s2
          have c0 : cellWeight Cell.Empty = 0 := rfl
          have c2 : cellWeight
              (Cell.Piece (if t.y = 3 then pk.promote else pk) Color.Sente) = 1 := rfl
          rw [c0, c2] at s1
          rw [c0] at s2
          omega
        case _ qk heqt =>
          -- destination holds a gote piece: capture
          injection h with h
          subst h
          have hct' : pos.cells ⟨p_to_c t, ht12⟩ = Cell.Piece qk .Gote := by
            rw [← heqt, Position.cellAt, dif_pos ht12]
          simp only [Position.piece_count, List.length_append,
            setCells_eq_update _ t _ ht12, setCells_eq_update _ f _ hf12]
          have s1 := sum_cellWeight_update pos.cells ⟨p_to_c t, ht12⟩
            (Cell.Piece (if t.y = 3 then pk.promote else pk) .Sente)
          have s2 := sum_cellWeight_update
            (Function.update pos.cells ⟨p_to_c t, ht12⟩
              (Cell.Piece (if t.y = 3 then pk.promote else pk) .Sente))
            ⟨p_to_c f, hf12⟩ Cell.Empty
          have hAf : cellWeight (Function.update pos.cells ⟨p_to_c t, ht12⟩
              (Cell.Piece (if t.y = 3 then pk.promote else pk) .Sente)
              ⟨p_to_c f, hf12⟩) = 1 := by
            by_cases hft : (⟨p_to_c f, hf12⟩ : Fin 12) = ⟨p_to_c t, ht12⟩
            · rw [hft, Function.update_same]
              rfl
            · rw [Function.update_noteq hft, hcf']
              rfl
          rw [hct'] at s1
          rw [hAf] at s2
          have c0 : cellWeight Cell.Empty = 0 := rfl
          have c1 : cellWeight (Cell.Piece qk Color.Gote) = 1 := rfl
          have c2 : cellWeight
              (Cell.Piece (if t.y = 3 then pk.promote else pk) Color.Sente) = 1 := rfl
          rw [c1, c2] at s1
          rw [c0] at s2
          simp only [List.length_append, List.length_cons, List.length_nil]
          omega
        case _ heqt => exact absurd h (by simp)
    case _ c hne => exact absurd h (by simp)
  | Drop pk t =>
    obtain ⟨htx, hty⟩ := hw
    have ht12 : p_to_c t < 12 := p_to_c_lt t htx hty
    simp only [Position.make_move_sente] at h
    split at h
    case _ qk qc heqt => exact absurd h (by simp)
    case _ heqt =>
      split at h
      case _ h' htp =>
        injection h with h
        subst h
        have hct' : pos.cells ⟨p_to_c t, ht12⟩ = Cell.Empty := by
          rw [← heqt, Position.cellAt, dif_pos ht12]
        have hlen := take_piece_length htp
        simp only [Position.piece_count, setCells_eq_update _ t _ ht12]
        have s1 := sum_cellWeight_update pos.cells ⟨p_to_c t, ht12⟩
          (Cell.Piece pk .Sente)
        rw [hct'] at s1
        have c0 : cellWeight Cell.Empty = 0 := rfl
        have c2 : cellWeight (Cell.Piece pk Color.Sente) = 1 := rfl
        rw [c0, c2] at s1
        omega
      case _ htp => exact absurd h (by simp)


theorem minus_with_boundaries_lt {a b high v : Nat}
    (h : minus_with_boundaries a b high = some v) : v < high := by
  unfold minus_with_boundaries at h
  split_ifs at h with h1 h2
  all_goals first
  | exact Option.noConfusion h
  | (injection h with h; omega)

theorem point_from_fen_within {s : List Char} {pt : Point}
    (h : Point.from_fen s = some pt) : pt.x < 3 ∧ pt.y < 4 := by
  match s with
  | [c0, c1] =>
    rw [Point.from_fen] at h
    rcases h0 : minus_with_boundaries c0.toNat 'a'.toNat 3 with _ | x <;>
      rcases h1 : minus_with_boundaries c1.toNat '1'.toNat 4 with _ | y <;>
      rw [h0, h1] at h
    · exact absurd h (by simp)
    · exact absurd h (by simp)
    · exact absurd h (by simp)
    · simp only [Option.some.injEq] at h
      subst h
      exact ⟨minus_with_boundaries_lt h0, minus_with_boundaries_lt h1⟩
  | [] => exact absurd h (by simp [Point.from_fen])
  | [_] => exact absurd h (by simp [Point.from_fen])
  | _ :: _ :: _ :: _ => exact absurd h (by simp [Point.from_fen])

theorem move_from_fen_within {s : List Char} {mv : Move}
    (h : Move.from_fen s = some mv) : mv.within := by
  match s with
  | [c0, c1, c2, c3] =>
    rw [Move.from_fen] at h
    split_ifs at h with hstar
    · rcases hk : PieceKind.from_fen_char c0.toLower with _ | pk <;> rw [hk] at h
      · exact absurd h (by simp)
      · rcases hp : Point.from_fen [c2, c3] with _ | p <;> rw [hp] at h
        · exact absurd h (by simp)
        · simp only [Option.map_some', Option.some.injEq] at h
          subst h
          exact point_from_fen_within hp
    · rcases hp1 : Point.from_fen [c0, c1] with _ | p1 <;> rw [hp1] at h
      · exact absurd h (by simp)
      · rcases hp2 : Point.from_fen [c2, c3] with _ | p2 <;> rw [hp2] at h
        · exact absurd h (by simp)
        · simp only [Option.some.injEq] at h
          subst h
          have w1 := point_from_fen_within hp1
          have w2 := point_from_fen_within hp2
          exact ⟨w1.1, w1.2, w2.1, w2.2⟩
  | [] => exact absurd h (by simp [Move.from_fen])
  | [_] => exact absurd h (by simp [Move.from_fen])
  | [_, _] => exact absurd h (by simp [Move.from_fen])
  | [_, _, _] => exact absurd h (by simp [Move.from_fen])
  | _ :: _ :: _ :: _ :: _ :: _ => exact absurd h (by simp [Move.from_fen])

theorem make_move_impl_piece_count {pos q : Position} {mv : Move} (hw : mv.within)
    (h : pos.make_move_impl mv = some q) : q.piece_count = pos.piece_count := by
  cases hcp : pos.current_player with
  | Sente =>
    rw [Position.make_move_impl, hcp] at h
    exact make_move_sente_piece_count hw h
  | Gote =>
    rw [Position.make_move_impl, hcp] at h
    rcases hmk : pos.swap_sides.make_move_sente mv.swap_sides with _ | q' <;>
      rw [hmk] at h
    · exact absurd h (by simp)
    · injection h with h
      subst h
      calc q'.swap_sides.piece_count = q'.piece_count := swap_sides_piece_count q'
        _ = pos.swap_sides.piece_count :=
          make_move_sente_piece_count (within_swap hw) hmk
        _ = pos.piece_count := swap_sides_piece_count pos

/-- Positions reachable from `initial` by successful `make_move` tokens. -/
inductive Reachable : Position → Prop
  | init : Reachable Position.initial
  | step {p q : Position} {s : List Char} :
      Reachable p → p.make_move s = some q → Reachable q

/-- C5: `make_move` never creates or destroys pieces: a successful move
preserves the total count over board and hands, and every reachable
position carries exactly the 8 pieces of the initial position. -/
theorem C5_piece_conservation :
    (∀ (p : Position) (s : List Char) (q : Position),
      p.make_move s = some q → q.piece_count = p.piece_count) ∧
    (∀ p : Position, Reachable p → p.piece_count = 8) := by
  have hstep : ∀ (p : Position) (s : List Char) (q : Position),
      p.make_move s = some q → q.piece_count = p.piece_count := by
    intro p s q h
    rw [Position.make_move] at h
    rcases hmv : Move.from_fen s with _ | mv <;> rw [hmv] at h
    · exact absurd h (by simp)
    · exact make_move_impl_piece_count (move_from_fen_within hmv) h
  refine ⟨hstep, fun p hp => ?_⟩
  induction hp with
  | init => decide
  | step hp hmk ih => rw [hstep _ _ _ hmk, ih]

/-- Witness for C5: the move `b1a2` from the initial position preserves
the count, and the initial position is reachable with 8 pieces. -/
theorem C5_piece_conservation_witness :
    ((Position.initial.make_move "b1a2".toList).getD Position.empty).piece_count
        = Position.initial.piece_count
      ∧ Position.initial.piece_count = 8 := by
  have h : Position.initial.make_move "b1a2".toList
      = some ((Position.initial.make_move "b1a2".toList).getD Position.empty) := by
    decide
  exact ⟨C5_piece_conservation.1 _ _ _ h,
    C5_piece_conservation.2 _ Reachable.init⟩

/-! ## C4: the loss condition -/

/-- The mover's home rank: rank 0 for sente, rank 3 for gote. -/
def homeRank : Color → Nat
  | .Sente => 0
  | .Gote => 3

/-- `color` attacks `target`: some piece of `color` may move onto
`target` under its movement geometry, expressed in its owner's own
forward-facing frame (the gote frame is the sente frame after
`swap_sides`, per the data model). -/
def attacks (pos : Position) (color : Color) (target : Point) : Prop :=
  ∃ q pk, q.x < 3 ∧ q.y < 4 ∧ pos.cellAt q = Cell.Piece pk color ∧
    (match color with
     | Color.Sente => pk.is_valid_move q target
     | Color.Gote => pk.is_valid_move q.swap_sides target.swap_sides) = true

/-- The loss condition in the specification's words: the side to move's
king-equivalent piece has been captured (a Lion sits in the opponent's
hand), or the opponent's Lion stands on the side-to-move's home rank and
no piece of the side to move attacks that square. -/
def lostSpec (pos : Position) : Prop :=
  PieceKind.Lion ∈ (match pos.current_player with
    | Color.Sente => pos.gote_hand
    | Color.Gote => pos.sente_hand) ∨
  ∃ pt : Point, pt.x < 3 ∧ pt.y < 4 ∧
    pos.cellAt pt = Cell.Piece .Lion pos.current_player.opponent ∧
    pt.y = homeRank pos.current_player ∧ ¬ attacks pos pos.current_player pt

theorem is_winning_sente_iff (pos : Position)
    (huniq : ∀ i j : Fin 12, pos.cells i = Cell.Piece .Lion .Sente →
      pos.cells j = Cell.Piece .Lion .Sente → i = j) :
    (pos.is_winning_sente = true ↔
      (PieceKind.Lion ∈ pos.sente_hand ∨
        ∃ pt : Point, pt.x < 3 ∧ pt.y < 4 ∧
          pos.cellAt pt = Cell.Piece .Lion .Sente ∧ pt.y = 3 ∧
          ¬ ∃ q pk, q.x < 3 ∧ q.y < 4 ∧ pos.cellAt q = Cell.Piece pk .Gote ∧
            pk.is_valid_move q.swap_sides pt.swap_sides = true)) := by
  rw [Position.is_winning_sente]
  cases hany : pos.sente_hand.any (· = PieceKind.Lion) with
  | true =>
    have hmem : PieceKind.Lion ∈ pos.sente_hand := by
      obtain ⟨x, hx, he⟩ := List.any_eq_true.1 hany
      simp only [decide_eq_true_eq] at he
      exact he ▸ hx
    exact iff_of_true (by simp) (Or.inl hmem)
  | false =>
    have hnot : PieceKind.Lion ∉ pos.sente_hand := by
      intro hmem
      have : pos.sente_hand.any (· = PieceKind.Lion) = true :=
        List.any_eq_true.2 ⟨_, hmem, by simp⟩
      rw [hany] at this
      exact Bool.noConfusion this
    simp only [Bool.false_eq_true, if_false]
    rcases hfind : (List.finRange 12).find?
        (fun i => pos.cells i = Cell.Piece .Lion .Sente) with _ | i
    · simp only [hfind, Bool.false_eq_true, false_iff]
      rintro (hmem | ⟨pt, hx, hy, hcell, _, _⟩)
      · exact hnot hmem
      · have hidx : pos.cells ⟨p_to_c pt, p_to_c_lt pt hx hy⟩
            = Cell.Piece .Lion .Sente := by
          rw [← cellAt_c_to_p, c_to_p_of_p_to_c pt hx]
          exact hcell
        have hnone := List.find?_eq_none.1 hfind
          ⟨p_to_c pt, p_to_c_lt pt hx hy⟩ (List.mem_finRange _)
        simp only [decide_eq_true_eq] at hnone
        exact hnone hidx
    · have hcelli : pos.cells i = Cell.Piece .Lion .Sente := by
        have := List.find?_some hfind
        simpa only [decide_eq_true_eq] using this
      have hpt_eq : ∀ pt : Point, pt.x < 3 → pt.y < 4 →
          pos.cellAt pt = Cell.Piece .Lion .Sente → pt = c_to_p i := by
        intro pt hx hy hcell
        have hidx : pos.cells ⟨p_to_c pt, p_to_c_lt pt hx hy⟩
            = Cell.Piece .Lion .Sente := by
          rw [← cellAt_c_to_p, c_to_p_of_p_to_c pt hx]
          exact hcell
        have := huniq _ _ hidx hcelli
        rw [← this, c_to_p_of_p_to_c pt hx]
      simp only [hfind]
      by_cases hy3 : (c_to_p i).y = 3
      · rw [if_pos hy3]
        rw [Bool.not_eq_true']
        constructor
        · intro hattack
          refine Or.inr ⟨c_to_p i, (c_to_p_within i).1, (c_to_p_within i).2,
            by rw [cellAt_c_to_p]; exact hcelli, hy3, ?_⟩
          rintro ⟨q, pk, hqx, hqy, hqcell, hv⟩
          have hmem : (q, pk) ∈ pos.find_all_pieces .Gote :=
            mem_find_all_pieces.2 ⟨hqx, hqy, hqcell⟩
          have : (pos.find_all_pieces .Gote).any
              (fun w => w.2.is_valid_move w.1.swap_sides (c_to_p i).swap_sides)
              = true :=
            List.any_eq_true.2 ⟨(q, pk), hmem, hv⟩
          rw [hattack] at this
          exact Bool.noConfusion this
        · rintro (hmem | ⟨pt, hx, hy, hcell, _, hnoatt⟩)
          · exact absurd hmem hnot
          · have hpt := hpt_eq pt hx hy hcell
            subst hpt
            cases hattack : (pos.find_all_pieces .Gote).any
                (fun w => w.2.is_valid_move w.1.swap_sides (c_to_p i).swap_sides) with
            | false => rfl
            | true =>
              obtain ⟨⟨q, pk⟩, hqmem, hqv⟩ := List.any_eq_true.1 hattack
              have hq := mem_find_all_pieces.1 hqmem
              exact absurd ⟨q, pk, hq.1, hq.2.1, hq.2.2, hqv⟩ hnoatt
      · rw [if_neg hy3]
        simp only [Bool.false_eq_true, false_iff]
        rintro (hmem | ⟨pt, hx, hy, hcell, hy3', _⟩)
        · exact hnot hmem
        · exact hy3 (hpt_eq pt hx hy hcell ▸ hy3')

theorem cellAt_swap_piece (p : Position) {pt : Point} (hx : pt.x < 3) (hy : pt.y < 4)
    {pk : PieceKind} {c : Color} :
    p.swap_sides.cellAt pt = Cell.Piece pk c ↔
      p.cellAt pt.swap_sides = Cell.Piece pk c.opponent := by
  rw [cellAt_swap_sides p pt hx hy, flipCell_eq_piece]

/-- C4: `is_lost` holds exactly when the side to move's king-equivalent
Lion has been captured (a Lion sits in the opponent's hand), or the
opponent's Lion stands on the side-to-move's home rank unattacked by any
piece of the side to move. The opponent is assumed to have at most one
Lion on the board (true of every position the game can produce; the Rust
code inspects only the first Lion found in cell order). -/
theorem C4_is_lost_iff (p : Position)
    (huniq : ∀ i j : Fin 12,
      p.cells i = Cell.Piece .Lion p.current_player.opponent →
      p.cells j = Cell.Piece .Lion p.current_player.opponent → i = j) :
    (p.is_lost = true ↔ lostSpec p) := by
  cases hcp : p.current_player with
  | Gote =>
    rw [hcp] at huniq
    simp only [Color.opponent] at huniq
    simp only [Position.is_lost, hcp]
    rw [is_winning_sente_iff p huniq]
    simp only [lostSpec, hcp, homeRank, attacks, Color.opponent]
  | Sente =>
    rw [hcp] at huniq
    simp only [Color.opponent] at huniq
    simp only [Position.is_lost, hcp]
    have huniqs : ∀ i j : Fin 12,
        p.swap_sides.cells i = Cell.Piece .Lion .Sente →
        p.swap_sides.cells j = Cell.Piece .Lion .Sente → i = j := by
      intro i j hi hj
      simp only [Position.swap_sides, flipCell_eq_piece, Color.opponent] at hi hj
      have hij := huniq _ _ hi hj
      have h2 := congrArg revIdx hij
      rwa [revIdx_revIdx, revIdx_revIdx] at h2
    rw [is_winning_sente_iff p.swap_sides huniqs]
    simp only [lostSpec, hcp, homeRank, attacks, Color.opponent]
    constructor
    · rintro (hmem | ⟨pt, hx, hy, hcell, hy3, hno⟩)
      · exact Or.inl hmem
      · right
        have hw := swap_sides_within hx hy
        refine ⟨pt.swap_sides, hw.1, hw.2, ?_, ?_, ?_⟩
        · exact (cellAt_swap_piece p hx hy).1 hcell
        · simp only [Point.swap_sides]
          omega
        · rintro ⟨q, pk, hqx, hqy, hqcell, hv⟩
          have hqw := swap_sides_within hqx hqy
          apply hno
          refine ⟨q.swap_sides, pk, hqw.1, hqw.2, ?_, ?_⟩
          · rw [cellAt_swap_piece p hqw.1 hqw.2, point_swap_swap hqx hqy, hqcell]
            rfl
          · rw [point_swap_swap hqx hqy]
            exact hv
    · rintro (hmem | ⟨pt, hx, hy, hcell, hy0, hno⟩)
      · exact Or.inl hmem
      · right
        have hw := swap_sides_within hx hy
        refine ⟨pt.swap_sides, hw.1, hw.2, ?_, ?_, ?_⟩
        · rw [cellAt_swap_piece p hw.1 hw.2, point_swap_swap hx hy, hcell]
          rfl
        · simp only [Point.swap_sides]
          omega
        · rintro ⟨q, pk, hqx, hqy, hqcell, hv⟩
          apply hno
          have hqcell' := (cellAt_swap_piece p hqx hqy).1 hqcell
          refine ⟨q.swap_sides, pk, (swap_sides_within hqx hqy).1,
            (swap_sides_within hqx hqy).2, hqcell', ?_⟩
          rw [point_swap_swap hx hy] at hv
          exact hv

/-- Witness for C4 at the lost position `l1L/G2/3/3 w -` (the board after
`c3c4` in the Rust test `win_on_lion_passed`). -/
theorem C4_is_lost_iff_witness :
    lostSpec ((Position.from_fen "l1L/G2/3/3 w -".toList).getD Position.empty) :=
  (C4_is_lost_iff ((Position.from_fen "l1L/G2/3/3 w -".toList).getD Position.empty)
    (by decide)).mp (by decide)

/-! ## C2: the terminal-rank Chicken drop -/

/-- C2 counterexample: in `3/3/3/L2 b C` (sente to move, a Chicken in
sente's hand, the far-rank cell `a4` empty), the drop token `C*a4` is
accepted by `make_move` — it does not return `None` as the claim states. -/
theorem C2_counterexample :
    ((Position.from_fen "3/3/3/L2 b C".toList).getD Position.empty).current_player
        = Color.Sente
      ∧ PieceKind.Chicken ∈
        ((Position.from_fen "3/3/3/L2 b C".toList).getD Position.empty).sente_hand
      ∧ ((Position.from_fen "3/3/3/L2 b C".toList).getD Position.empty).cellAt ⟨0, 3⟩
        = Cell.Empty
      ∧ (((Position.from_fen "3/3/3/L2 b C".toList).getD Position.empty).make_move
          "C*a4".toList).isSome = true := by
  decide

theorem make_move_sente_drop_some {p : Position} {pk : PieceKind} {t : Point}
    (hempty : p.cellAt t = Cell.Empty) (hhand : pk ∈ p.sente_hand) :
    (p.make_move_sente (Move.Drop pk t)).isSome = true := by
  have hsome := take_piece_isSome hhand
  rcases htp : take_piece p.sente_hand pk with _ | h'
  · rw [htp] at hsome
    simp at hsome
  · simp [Position.make_move_sente, hempty, htp]

theorem chicken_drop_not_mem_sente (pos : Position) (t : Point) (hy3 : t.y = 3) :
    Move.Drop .Chicken t ∉ pos.list_possible_moves_sente := by
  intro hmem
  rcases t with ⟨tx, ty⟩
  simp only at hy3
  subst hy3
  simp only [Position.list_possible_moves_sente, List.mem_append] at hmem
  rcases hmem with h | h
  · simp only [List.mem_flatMap, List.mem_map] at h
    obtain ⟨q, _, t', _, heq⟩ := h
    exact Move.noConfusion heq
  · have hpred := (List.mem_filter.1 h).2
    simp at hpred

/-- C2 amended: the forbidden terminal-rank Chicken drop is rejected only
by omission from `possible_moves`; `make_move` itself accepts the drop
token whenever the target cell is empty and a Chicken is in the mover's
hand. -/
theorem C2_amended (p : Position) (t : Point) (hx : t.x < 3) (hy : t.y < 4)
    (hfar : t.y = (match p.current_player with
      | Color.Sente => 3
      | Color.Gote => 0))
    (hempty : p.cellAt t = Cell.Empty)
    (hhand : PieceKind.Chicken ∈ (match p.current_player with
      | Color.Sente => p.sente_hand
      | Color.Gote => p.gote_hand)) :
    (p.make_move (Move.Drop .Chicken t).to_fen).isSome = true ∧
      Move.Drop .Chicken t ∉ p.list_possible_moves := by
  have hrt : Move.from_fen (Move.Drop PieceKind.Chicken t).to_fen
      = some (Move.Drop .Chicken t) := move_fen_roundtrip ⟨hx, hy⟩
  rw [Position.make_move, hrt]
  cases hcp : p.current_player with
  | Sente =>
    rw [hcp] at hfar hhand
    simp only at hfar hhand
    constructor
    · simpa only [Position.make_move_impl, hcp] using
        make_move_sente_drop_some hempty hhand
    · intro hmem
      rw [Position.list_possible_moves, hcp] at hmem
      exact chicken_drop_not_mem_sente p t hfar hmem
  | Gote =>
    rw [hcp] at hfar hhand
    simp only at hfar hhand
    constructor
    · have hempty' : p.swap_sides.cellAt t.swap_sides = Cell.Empty := by
        rw [cellAt_swap_sides p t.swap_sides (swap_sides_within hx hy).1
          (swap_sides_within hx hy).2, point_swap_swap hx hy, hempty]
        rfl
      have hsucc := @make_move_sente_drop_some p.swap_sides .Chicken t.swap_sides
        hempty' hhand
      simp only [Position.make_move_impl, hcp, Move.swap_sides]
      rcases hmk : p.swap_sides.make_move_sente (Move.Drop .Chicken t.swap_sides)
          with _ | q
      · rw [hmk] at hsucc
        simp at hsucc
      · simp
    · intro hmem
      rw [Position.list_possible_moves, hcp] at hmem
      obtain ⟨m', hm', heq⟩ := List.mem_map.1 hmem
      cases m' with
      | Step f' t' => exact Move.noConfusion heq
      | Drop pk' t' =>
        simp only [Move.swap_sides, Move.Drop.injEq] at heq
        obtain ⟨hpk, hts⟩ := heq
        subst hpk
        have ht'w : t'.x < 3 ∧ t'.y < 4 := mem_moves_sente_within hm'
        have hy3 : t'.y = 3 := by
          have : t'.swap_sides.y = 0 := by rw [hts, hfar]
          simp only [Point.swap_sides] at this
          omega
        exact chicken_drop_not_mem_sente p.swap_sides t' hy3 hm'

/-- Witness for the amended C2 at `3/3/3/L2 b C`, dropping on `a4`. -/
theorem C2_amended_witness :
    (((Position.from_fen "3/3/3/L2 b C".toList).getD Position.empty).make_move
        (Move.Drop .Chicken ⟨0, 3⟩).to_fen).isSome = true ∧
      Move.Drop .Chicken ⟨0, 3⟩ ∉
        ((Position.from_fen "3/3/3/L2 b C".toList).getD Position.empty).list_possible_moves :=
  C2_amended ((Position.from_fen "3/3/3/L2 b C".toList).getD Position.empty)
    ⟨0, 3⟩ (by decide) (by decide) (by decide) (by decide) (by decide)

/-! ## C6: final selection by minimal accumulated reward -/

theorem foldl_min_spec (xs : List (List Char × ℚ)) (x : List Char × ℚ) :
    (xs.foldl (fun best y => if y.2 < best.2 then y else best) x = x ∨
      xs.foldl (fun best y => if y.2 < best.2 then y else best) x ∈ xs) ∧
    (xs.foldl (fun best y => if y.2 < best.2 then y else best) x).2 ≤ x.2 ∧
    ∀ y ∈ xs, (xs.foldl (fun best y => if y.2 < best.2 then y else best) x).2 ≤ y.2 := by
  induction xs generalizing x with
  | nil => exact ⟨Or.inl rfl, le_refl _, by simp⟩
  | cons z zs ih =>
    simp only [List.foldl_cons]
    by_cases hz : z.2 < x.2
    · rw [if_pos hz]
      obtain ⟨hmem, hle, hall⟩ := ih z
      refine ⟨?_, le_trans hle (le_of_lt hz), ?_⟩
      · rcases hmem with he | hm
        · exact Or.inr (by rw [he]; exact List.mem_cons_self z zs)
        · exact Or.inr (List.mem_cons_of_mem _ hm)
      · intro y hy
        rcases List.mem_cons.1 hy with rfl | hm'
        · exact hle
        · exact hall y hm'
    · rw [if_neg hz]
      obtain ⟨hmem, hle, hall⟩ := ih x
      refine ⟨?_, hle, ?_⟩
      · rcases hmem with he | hm
        · exact Or.inl he
        · exact Or.inr (List.mem_cons_of_mem _ hm)
      · intro y hy
        rcases List.mem_cons.1 hy with rfl | hm'
        · exact le_trans hle (le_of_not_lt hz)
        · exact hall y hm'

theorem minByFirst_spec {l : List (List Char × ℚ)} {x : List Char × ℚ}
    (h : minByFirst l = some x) : x ∈ l ∧ ∀ y ∈ l, x.2 ≤ y.2 := by
  cases l with
  | nil => exact absurd h (by simp [minByFirst])
  | cons a as =>
    rw [minByFirst] at h
    injection h with h
    subst h
    obtain ⟨hmem, hle, hall⟩ := foldl_min_spec as a
    refine ⟨?_, ?_⟩
    · rcases hmem with he | hm
      · rw [he]
        exact List.mem_cons_self a as
      · exact List.mem_cons_of_mem _ hm
    · intro y hy
      rcases List.mem_cons.1 hy with rfl | hm'
      · exact hle
      · exact hall y hm'

theorem mapM_pair_fst {F : List Char → Option (List Char × ℚ)}
    (hF : ∀ mv p, F mv = some p → p.1 = mv) :
    ∀ {l : List (List Char)} {pairs : List (List Char × ℚ)},
      l.mapM F = some pairs → pairs.map Prod.fst = l := by
  intro l
  induction l with
  | nil =>
    intro pairs h
    simp only [List.mapM_nil, pure, Option.some.injEq] at h
    subst h
    rfl
  | cons m ms ih =>
    intro pairs h
    rw [List.mapM_cons] at h
    simp only [Bind.bind, pure] at h
    rcases hfm : F m with _ | p
    · rw [hfm, Option.none_bind] at h
      exact Option.noConfusion h
    · rw [hfm, Option.some_bind] at h
      rcases hms : ms.mapM F with _ | xs
      · rw [hms, Option.none_bind] at h
        exact Option.noConfusion h
      · rw [hms, Option.some_bind] at h
        injection h with h
        subst h
        simp only [List.map_cons, hF m p hfm, ih hms]

theorem childRewards_fst {α : Type} (g : GameOps α) (t : Table) (pos : α)
    {pairs : List (List Char × ℚ)} (h : childRewards g t pos = some pairs) :
    pairs.map Prod.fst = g.possible_moves pos := by
  rw [childRewards] at h
  refine mapM_pair_fst ?_ h
  intro mv p hp
  simp only [Bind.bind, pure] at hp
  rcases hq : g.make_move pos mv with _ | q
  · rw [hq, Option.none_bind] at hp
    exact Option.noConfusion hp
  · rw [hq, Option.some_bind] at hp
    rcases hn : lookupNode t (g.to_str q) with _ | n
    · rw [hn, Option.none_bind] at hp
      exact Option.noConfusion hp
    · rw [hn, Option.some_bind] at hp
      injection hp with hp
      rw [← hp]

/-- C6: whenever one `choose_move` call returns a move, that move is a
root move whose child node's accumulated reward is minimal (not maximal)
among the rewards of all of the root's legal moves. -/
theorem C6_choose_best_min {α : Type} (g : GameOps α) (ev : EvalOps α)
    (policy : Table → α → Option (List Char)) (n : Nat) (pos : α) (mv : List Char)
    (h : mctsChooseMove g ev policy n pos = some (some mv)) :
    ∃ st pairs r, playoutsTable g ev policy n pos = some st ∧
      childRewards g st pos = some pairs ∧
      pairs.map Prod.fst = g.possible_moves pos ∧
      (mv, r) ∈ pairs ∧ ∀ q ∈ pairs, r ≤ q.2 := by
  rw [mctsChooseMove] at h
  rcases hpt : playoutsTable g ev policy n pos with _ | st <;>
    simp only [hpt, Option.bind_eq_bind, Option.none_bind, Option.some_bind] at h
  · exact absurd h (by simp [bind])
  · rw [chooseBestByReward] at h
    rcases hcr : childRewards g st pos with _ | pairs <;> rw [hcr] at h
    · exact absurd h (by simp)
    · simp only [Option.map_some', Option.some.injEq] at h
      rcases hmin : minByFirst pairs with _ | x <;> rw [hmin] at h
      · exact absurd h (by simp)
      · simp only [Option.map_some', Option.some.injEq] at h
        subst h
        obtain ⟨hxmem, hxmin⟩ := minByFirst_spec hmin
        exact ⟨st, pairs, x.2, rfl, hcr, childRewards_fst g st pos hcr, hxmem, hxmin⟩

/-- Witness for C6: a two-try search on the initial position with a
trivial evaluator and a policy that never samples returns `b1a2`, and the
theorem exhibits its minimality data. -/
theorem C6_choose_best_min_witness :
    ∃ st pairs r,
      playoutsTable kidsShogi ⟨fun _ => 0, 1⟩ (fun _ _ => none) 2 Position.initial
          = some st ∧
      childRewards kidsShogi st Position.initial = some pairs ∧
      pairs.map Prod.fst = kidsShogi.possible_moves Position.initial ∧
      ("b1a2".toList, r) ∈ pairs ∧ ∀ q ∈ pairs, r ≤ q.2 :=
  C6_choose_best_min kidsShogi ⟨fun _ => 0, 1⟩ (fun _ _ => none) 2 Position.initial
    "b1a2".toList (by decide)

/-! ## C3: serialization round trip -/

theorem fenCharOf_sente_facts : ∀ pk : PieceKind,
    (fenCharOf pk .Sente).isDigit = false ∧ (fenCharOf pk .Sente).isLower = false ∧
    (fenCharOf pk .Sente).isUpper = true ∧
    PieceKind.from_fen_char (fenCharOf pk .Sente).toLower = some pk := by
  decide

theorem fenCharOf_gote_facts : ∀ pk : PieceKind,
    (fenCharOf pk .Gote).isDigit = false ∧ (fenCharOf pk .Gote).isLower = true ∧
    PieceKind.from_fen_char (fenCharOf pk .Gote) = some pk := by
  decide

theorem fenCharOf_sep : ∀ (pk : PieceKind) (c : Color),
    fenCharOf pk c ≠ ' ' ∧ fenCharOf pk c ≠ '/' ∧ fenCharOf pk c ≠ '-' := by
  decide

theorem digitChar_facts (e : Nat) (he1 : 1 ≤ e) (he3 : e ≤ 3) :
    (Char.ofNat ('0'.toNat + e)).isDigit = true ∧
    (Char.ofNat ('0'.toNat + e)).toNat - '0'.toNat = e ∧
    Char.ofNat ('0'.toNat + e) ≠ ' ' ∧ Char.ofNat ('0'.toNat + e) ≠ '/' := by
  interval_cases e <;> decide

/-- Consuming one piece character during rank parsing. -/
theorem parseRankGo_piece {y x : Nat} (hx : x < 3) (pk : PieceKind) (c : Color)
    (rest : List Char) (cells : Fin 12 → Cell) :
    parseRankGo y (fenCharOf pk c :: rest) x cells
      = parseRankGo y rest (x + 1) (setCells cells ⟨x, y⟩ (Cell.Piece pk c)) := by
  cases c with
  | Sente =>
    obtain ⟨hd, hl, hu, hf⟩ := fenCharOf_sente_facts pk
    rw [parseRankGo, if_neg (by omega), hd, hl, hu, hf]
    simp only [Bool.false_eq_true, if_false, if_true, if_pos trivial]
  | Gote =>
    obtain ⟨hd, hl, hf⟩ := fenCharOf_gote_facts pk
    rw [parseRankGo, if_neg (by omega), hd, hl, hf]
    simp only [Bool.false_eq_true, if_false, if_true, if_pos trivial]

/-- Consuming one empties digit during rank parsing. -/
theorem parseRankGo_digit {y x e : Nat} (hx : x < 3) (he1 : 1 ≤ e) (he3 : e ≤ 3)
    (rest : List Char) (cells : Fin 12 → Cell) :
    parseRankGo y (Char.ofNat ('0'.toNat + e) :: rest) x cells
      = parseRankGo y rest (x + e) cells := by
  obtain ⟨hd, hv, _, _⟩ := digitChar_facts e he1 he3
  rw [parseRankGo, if_neg (by omega), hd, hv]
  simp only [if_true]

theorem splitChar_of_not_mem {sep : Char} {l : List Char} (h : ¬ sep ∈ l) :
    splitChar sep l = [l] := by
  induction l with
  | nil => rfl
  | cons c rest ih =>
    rw [splitChar,
      if_neg (fun he => h (by rw [← he]; exact List.mem_cons_self c rest))]
    rw [ih (fun hm => h (List.mem_cons_of_mem _ hm))]

theorem splitChar_append {sep : Char} {a : List Char} (b : List Char)
    (h : ¬ sep ∈ a) : splitChar sep (a ++ sep :: b) = a :: splitChar sep b := by
  induction a with
  | nil => simp [splitChar]
  | cons c rest ih =>
    rw [List.cons_append, splitChar,
      if_neg (fun he => h (by rw [← he]; exact List.mem_cons_self c rest)),
      ih (fun hm => h (List.mem_cons_of_mem _ hm))]

theorem rankChars_sep : ∀ (row : List Cell) (e : Nat), e + row.length ≤ 3 →
    ∀ ch ∈ rankChars row e, ch ≠ ' ' ∧ ch ≠ '/' := by
  intro row
  induction row with
  | nil =>
    intro e he ch hch
    rw [rankChars] at hch
    split_ifs at hch with hepos
    · rw [List.mem_singleton] at hch
      subst hch
      obtain ⟨_, _, h1, h2⟩ := digitChar_facts e (by omega) (by omega)
      exact ⟨h1, h2⟩
    · exact absurd hch (by simp)
  | cons c rest ih =>
    intro e he ch hch
    cases c with
    | Empty =>
      rw [rankChars] at hch
      exact ih (e + 1) (by simp at he ⊢; omega) ch hch
    | Piece pk col =>
      rw [rankChars] at hch
      rcases List.mem_append.1 hch with hm | hm
      · split_ifs at hm with hepos
        · rw [List.mem_singleton] at hm
          subst hm
          obtain ⟨_, _, h1, h2⟩ := digitChar_facts e (by omega) (by simp at he; omega)
          exact ⟨h1, h2⟩
        · exact absurd hm (by simp)
      · rcases List.mem_cons.1 hm with rfl | hm'
        · obtain ⟨h1, h2, _⟩ := fenCharOf_sep pk col
          exact ⟨h1, h2⟩
        · exact ih 0 (by simp at he ⊢; omega) ch hm'

/-- Proof-side helper: the effect of parsing one rank cell (pieces are
written, empties are skipped). -/
def setIfPiece (cells : Fin 12 → Cell) (x y : Nat) (c : Cell) : Fin 12 → Cell :=
  match c with
  | Cell.Empty => cells
  | Cell.Piece _ _ => setCells cells ⟨x, y⟩ c

theorem parseRank_rankChars {y : Nat} (c0 c1 c2 : Cell) (cells : Fin 12 → Cell) :
    parseRankGo y (rankChars [c0, c1, c2] 0) 0 cells
      = some (setIfPiece (setIfPiece (setIfPiece cells 0 y c0) 1 y c1) 2 y c2) := by
  rcases c0 with ⟨pk0, co0⟩ | _ <;> rcases c1 with ⟨pk1, co1⟩ | _ <;>
    rcases c2 with ⟨pk2, co2⟩ | _
  · -- PPP
    have hr : rankChars [Cell.Piece pk0 co0, Cell.Piece pk1 co1, Cell.Piece pk2 co2] 0
        = [fenCharOf pk0 co0, fenCharOf pk1 co1, fenCharOf pk2 co2] := rfl
    rw [hr, parseRankGo_piece (by omega), parseRankGo_piece (by omega),
      parseRankGo_piece (by omega)]
    rfl
  · -- PPE
    have hr : rankChars [Cell.Piece pk0 co0, Cell.Piece pk1 co1, Cell.Empty] 0
        = [fenCharOf pk0 co0, fenCharOf pk1 co1, Char.ofNat ('0'.toNat + 1)] := rfl
    rw [hr, parseRankGo_piece (by omega), parseRankGo_piece (by omega),
      parseRankGo_digit (by omega) (by omega) (by omega)]
    rfl
  · -- PEP
    have hr : rankChars [Cell.Piece pk0 co0, Cell.Empty, Cell.Piece pk2 co2] 0
        = [fenCharOf pk0 co0, Char.ofNat ('0'.toNat + 1), fenCharOf pk2 co2] := rfl
    rw [hr, parseRankGo_piece (by omega),
      parseRankGo_digit (by omega) (by omega) (by omega), parseRankGo_piece (by omega)]
    rfl
  · -- PEE
    have hr : rankChars [Cell.Piece pk0 co0, Cell.Empty, Cell.Empty] 0
        = [fenCharOf pk0 co0, Char.ofNat ('0'.toNat + 2)] := rfl
    rw [hr, parseRankGo_piece (by omega),
      parseRankGo_digit (by omega) (by omega) (by omega)]
    rfl
  · -- EPP
    have hr : rankChars [Cell.Empty, Cell.Piece pk1 co1, Cell.Piece pk2 co2] 0
        = [Char.ofNat ('0'.toNat + 1), fenCharOf pk1 co1, fenCharOf pk2 co2] := rfl
    rw [hr, parseRankGo_digit (by omega) (by omega) (by omega),
      parseRankGo_piece (by omega), parseRankGo_piece (by omega)]
    rfl
  · -- EPE
    have hr : rankChars [Cell.Empty, Cell.Piece pk1 co1, Cell.Empty] 0
        = [Char.ofNat ('0'.toNat + 1), fenCharOf pk1 co1, Char.ofNat ('0'.toNat + 1)] := rfl
    rw [hr, parseRankGo_digit (by omega) (by omega) (by omega),
      parseRankGo_piece (by omega), parseRankGo_digit (by omega) (by omega) (by omega)]
    rfl
  · -- EEP
    have hr : rankChars [Cell.Empty, Cell.Empty, Cell.Piece pk2 co2] 0
        = [Char.ofNat ('0'.toNat + 2), fenCharOf pk2 co2] := rfl
    rw [hr, parseRankGo_digit (by omega) (by omega) (by omega),
      parseRankGo_piece (by omega)]
    rfl
  · -- EEE
    have hr : rankChars [Cell.Empty, Cell.Empty, Cell.Empty] 0
        = [Char.ofNat ('0'.toNat + 3)] := rfl
    rw [hr, parseRankGo_digit (by omega) (by omega) (by omega)]
    rfl

theorem setIfPiece_eval (cells : Fin 12 → Cell) (x y : Nat) (c : Cell) (j : Fin 12) :
    setIfPiece cells x y c j
      = if j.val = x + y * 3 ∧ c ≠ Cell.Empty then c else cells j := by
  cases c with
  | Empty => simp [setIfPiece]
  | Piece pk col =>
    rw [setIfPiece, setCells]
    by_cases hb : x + y * 3 < 12
    · rw [dif_pos (show p_to_c ⟨x, y⟩ < 12 from hb)]
      by_cases hj : j.val = x + y * 3
      · rw [if_pos ⟨hj, by simp⟩]
        have hje : j = ⟨p_to_c ⟨x, y⟩, hb⟩ := Fin.ext hj
        rw [hje, Function.update_same]
      · rw [if_neg (fun hc => hj hc.1), Function.update_noteq]
        intro he
        exact hj (by rw [he]; rfl)
    · rw [dif_neg (show ¬ p_to_c ⟨x, y⟩ < 12 from hb), if_neg]
      intro hc
      exact hb (hc.1 ▸ j.isLt)

theorem rank_chain_eq (p : Position) :
    setIfPiece (setIfPiece (setIfPiece (setIfPiece (setIfPiece (setIfPiece
      (setIfPiece (setIfPiece (setIfPiece (setIfPiece (setIfPiece (setIfPiece
      (fun _ => Cell.Empty)
      0 0 (p.cellAt ⟨0, 0⟩)) 1 0 (p.cellAt ⟨1, 0⟩)) 2 0 (p.cellAt ⟨2, 0⟩))
      0 1 (p.cellAt ⟨0, 1⟩)) 1 1 (p.cellAt ⟨1, 1⟩)) 2 1 (p.cellAt ⟨2, 1⟩))
      0 2 (p.cellAt ⟨0, 2⟩)) 1 2 (p.cellAt ⟨1, 2⟩)) 2 2 (p.cellAt ⟨2, 2⟩))
      0 3 (p.cellAt ⟨0, 3⟩)) 1 3 (p.cellAt ⟨1, 3⟩)) 2 3 (p.cellAt ⟨2, 3⟩)
    = p.cells := by
  funext j
  fin_cases j <;>
    simp only [setIfPiece_eval, Position.cellAt, p_to_c] <;>
    norm_num <;>
    first
    | rfl
    | exact fun h => h.symm

theorem hand_upper_facts : ∀ pk : PieceKind,
    (pk.to_fen_char.toUpper).isLower = false ∧ (pk.to_fen_char.toUpper).isUpper = true ∧
    PieceKind.from_fen_char (pk.to_fen_char.toUpper).toLower = some pk ∧
    pk.to_fen_char.toUpper ≠ ' ' ∧ pk.to_fen_char.toUpper ≠ '-' := by
  decide

theorem hand_lower_facts : ∀ pk : PieceKind,
    (pk.to_fen_char).isLower = true ∧ PieceKind.from_fen_char pk.to_fen_char = some pk ∧
    pk.to_fen_char ≠ ' ' ∧ pk.to_fen_char ≠ '-' := by
  decide

theorem parseHandGo_lower (gh : List PieceKind) :
    ∀ accS accG : List PieceKind,
    parseHandGo (gh.map PieceKind.to_fen_char) accS accG = some (accS, accG ++ gh) := by
  induction gh with
  | nil =>
    intro accS accG
    simp [parseHandGo]
  | cons pk rest ih =>
    intro accS accG
    obtain ⟨hl, hf, _, _⟩ := hand_lower_facts pk
    simp only [List.map_cons]
    rw [parseHandGo, hl]
    simp only [if_true]
    rw [hf]
    show parseHandGo (rest.map PieceKind.to_fen_char) accS (accG ++ [pk])
      = some (accS, accG ++ pk :: rest)
    rw [ih accS (accG ++ [pk])]
    simp

theorem parseHandGo_upper (sh : List PieceKind) (rest : List Char) :
    ∀ accS accG : List PieceKind,
    parseHandGo ((sh.map (fun pk => pk.to_fen_char.toUpper)) ++ rest) accS accG
      = parseHandGo rest (accS ++ sh) accG := by
  induction sh with
  | nil =>
    intro accS accG
    simp
  | cons pk more ih =>
    intro accS accG
    obtain ⟨hl, hu, hf, _, _⟩ := hand_upper_facts pk
    simp only [List.map_cons, List.cons_append]
    rw [parseHandGo, hl]
    simp only [Bool.false_eq_true, if_false]
    rw [hu]
    simp only [if_true]
    rw [hf]
    show parseHandGo ((more.map (fun pk => pk.to_fen_char.toUpper)) ++ rest)
        (accS ++ [pk]) accG = parseHandGo rest (accS ++ pk :: more) accG
    rw [ih (accS ++ [pk]) accG]
    simp

/-- The canonical round trip: parsing a position's FEN returns the same
board and player, with each hand sorted. -/
theorem to_fen_from_fen (p : Position) :
    Position.from_fen p.to_fen = some
      { cells := p.cells
        sente_hand := sortHand p.sente_hand
        gote_hand := sortHand p.gote_hand
        current_player := p.current_player } := by
  have hsep : ∀ y' : Nat, ∀ ch ∈ rankChars (p.rank y') 0, ch ≠ ' ' ∧ ch ≠ '/' :=
    fun y' ch hch => rankChars_sep (p.rank y') 0 (by simp [Position.rank]) ch hch
  have hB : ¬ ' ' ∈ (rankChars (p.rank 3) 0 ++ '/' :: rankChars (p.rank 2) 0
      ++ '/' :: rankChars (p.rank 1) 0 ++ '/' :: rankChars (p.rank 0) 0) := by
    intro hm
    rcases List.mem_append.1 hm with h | h
    · rcases List.mem_append.1 h with h | h
      · rcases List.mem_append.1 h with h | h
        · exact (hsep 3 _ h).1 rfl
        · rcases List.mem_cons.1 h with h | h
          · exact absurd h (by decide)
          · exact (hsep 2 _ h).1 rfl
      · rcases List.mem_cons.1 h with h | h
        · exact absurd h (by decide)
        · exact (hsep 1 _ h).1 rfl
    · rcases List.mem_cons.1 h with h | h
      · exact absurd h (by decide)
      · exact (hsep 0 _ h).1 rfl
  have hs_not : ¬ ' ' ∈ [(match p.current_player with
      | Color.Sente => 'b'
      | Color.Gote => 'w')] := by
    cases p.current_player <;> decide
  have hhand_not : ∀ ch ∈ ((sortHand p.sente_hand).map (fun pk => pk.to_fen_char.toUpper)
      ++ (sortHand p.gote_hand).map PieceKind.to_fen_char), ch ≠ ' ' ∧ ch ≠ '-' := by
    intro ch hch
    rcases List.mem_append.1 hch with h | h
    · obtain ⟨pk, _, rfl⟩ := List.mem_map.1 h
      obtain ⟨_, _, _, h1, h2⟩ := hand_upper_facts pk
      exact ⟨h1, h2⟩
    · obtain ⟨pk, _, rfl⟩ := List.mem_map.1 h
      obtain ⟨_, _, h1, h2⟩ := hand_lower_facts pk
      exact ⟨h1, h2⟩
  have hH_not : ¬ ' ' ∈ (if ((sortHand p.sente_hand).map (fun pk => pk.to_fen_char.toUpper)
      ++ (sortHand p.gote_hand).map PieceKind.to_fen_char).isEmpty then ['-']
      else (sortHand p.sente_hand).map (fun pk => pk.to_fen_char.toUpper)
        ++ (sortHand p.gote_hand).map PieceKind.to_fen_char) := by
    split_ifs
    · decide
    · intro hm
      exact (hhand_not _ hm).1 rfl
  have h2 : splitChar '/' (rankChars (p.rank 3) 0 ++ '/' :: rankChars (p.rank 2) 0
      ++ '/' :: rankChars (p.rank 1) 0 ++ '/' :: rankChars (p.rank 0) 0)
      = [rankChars (p.rank 3) 0, rankChars (p.rank 2) 0,
         rankChars (p.rank 1) 0, rankChars (p.rank 0) 0] := by
    simp only [List.append_assoc, List.cons_append]
    rw [splitChar_append _ (fun hm => (hsep 3 _ hm).2 rfl),
      splitChar_append _ (fun hm => (hsep 2 _ hm).2 rfl),
      splitChar_append _ (fun hm => (hsep 1 _ hm).2 rfl),
      splitChar_of_not_mem (fun hm => (hsep 0 _ hm).2 rfl)]
  simp only [Position.to_fen, Position.from_fen]
  rw [show (((match p.current_player with
      | Color.Sente => 'b'
      | Color.Gote => 'w') : Char) :: ' ' :: (if ((sortHand p.sente_hand).map
        (fun pk => pk.to_fen_char.toUpper)
      ++ (sortHand p.gote_hand).map PieceKind.to_fen_char).isEmpty then ['-']
      else (sortHand p.sente_hand).map (fun pk => pk.to_fen_char.toUpper)
        ++ (sortHand p.gote_hand).map PieceKind.to_fen_char))
      = [(match p.current_player with
      | Color.Sente => 'b'
      | Color.Gote => 'w')] ++ ' ' :: (if ((sortHand p.sente_hand).map
        (fun pk => pk.to_fen_char.toUpper)
      ++ (sortHand p.gote_hand).map PieceKind.to_fen_char).isEmpty then ['-']
      else (sortHand p.sente_hand).map (fun pk => pk.to_fen_char.toUpper)
        ++ (sortHand p.gote_hand).map PieceKind.to_fen_char) from rfl]
  rw [splitChar_append _ hB, splitChar_append _ hs_not, splitChar_of_not_mem hH_not]
  simp only [h2]
  simp only [Position.rank]
  rw [parseRank_rankChars]
  simp only [Option.bind_eq_bind, Option.some_bind]
  rw [parseRank_rankChars]
  simp only [Option.bind_eq_bind, Option.some_bind]
  rw [parseRank_rankChars]
  simp only [Option.bind_eq_bind, Option.some_bind]
  rw [parseRank_rankChars]
  simp only [Option.bind_eq_bind, Option.some_bind]
  simp only [rank_chain_eq]
  have hne : (sortHand p.sente_hand).map (fun pk => pk.to_fen_char.toUpper)
      ++ (sortHand p.gote_hand).map PieceKind.to_fen_char ≠ ['-'] := by
    intro heq
    exact (hhand_not '-' (by rw [heq]; exact List.mem_singleton_self '-')).2 rfl
  have hparse : parseHandGo ((sortHand p.sente_hand).map (fun pk => pk.to_fen_char.toUpper)
      ++ (sortHand p.gote_hand).map PieceKind.to_fen_char) [] []
      = some (sortHand p.sente_hand, sortHand p.gote_hand) := by
    rw [parseHandGo_upper, parseHandGo_lower]
    simp
  cases hcp : p.current_player
  · rw [if_pos rfl]
    by_cases he : ((sortHand p.sente_hand).map (fun pk => pk.to_fen_char.toUpper)
        ++ (sortHand p.gote_hand).map PieceKind.to_fen_char).isEmpty = true
    · rw [if_pos he, if_pos rfl]
      have h0 : sortHand p.sente_hand = [] ∧ sortHand p.gote_hand = [] := by
        simp only [List.isEmpty_iff, List.append_eq_nil, List.map_eq_nil_iff] at he
        exact he
      rw [h0.1, h0.2]
    · rw [if_neg he, if_neg hne, hparse]
      simp only [Option.some_bind]
  · rw [if_neg (by decide), if_pos rfl]
    by_cases he : ((sortHand p.sente_hand).map (fun pk => pk.to_fen_char.toUpper)
        ++ (sortHand p.gote_hand).map PieceKind.to_fen_char).isEmpty = true
    · rw [if_pos he, if_pos rfl]
      have h0 : sortHand p.sente_hand = [] ∧ sortHand p.gote_hand = [] := by
        simp only [List.isEmpty_iff, List.append_eq_nil, List.map_eq_nil_iff] at he
        exact he
      rw [h0.1, h0.2]
    · rw [if_neg he, if_neg hne, hparse]
      simp only [Option.some_bind]

/-- C3: for every position (so in particular for every reachable one),
parsing the canonical serialization succeeds and returns a position with
the same board cells, the same side to move, and the same hands compared
as unordered multisets (the parser returns each hand sorted). -/
theorem C3_fen_roundtrip (p : Position) :
    ∃ q : Position, Position.from_fen p.to_fen = some q ∧
      q.cells = p.cells ∧ q.current_player = p.current_player ∧
      q.sente_hand.Perm p.sente_hand ∧ q.gote_hand.Perm p.gote_hand :=
  ⟨_, to_fen_from_fen p, rfl, rfl, List.perm_insertionSort _ _,
    List.perm_insertionSort _ _⟩

/-- Two positions with the same FEN have the same side to move. -/
theorem to_fen_player_inj {p q : Position} (h : p.to_fen = q.to_fen) :
    p.current_player = q.current_player := by
  have hp := to_fen_from_fen p
  rw [h, to_fen_from_fen q] at hp
  injection hp with hp
  exact (congrArg Position.current_player hp).symm

/-! ## C1: a terminal root position -/

theorem make_move_sente_player {p q : Position} {mv : Move}
    (h : p.make_move_sente mv = some q) : q.current_player = Color.Gote := by
  cases mv with
  | Step f t =>
    simp only [Position.make_move_sente] at h
    split at h
    case _ pk heqf =>
      split_ifs at h with hv <;> split at h <;>
        first
          | (injection h with h; subst h; rfl)
          | exact Option.noConfusion h
    case _ => exact absurd h (by simp)
  | Drop pk t =>
    simp only [Position.make_move_sente] at h
    split at h
    case _ => exact absurd h (by simp)
    case _ =>
      split at h
      case _ =>
        injection h with h
        subst h
        rfl
      case _ => exact absurd h (by simp)

theorem make_move_impl_player {p q : Position} {mv : Move}
    (h : p.make_move_impl mv = some q) :
    q.current_player = p.current_player.opponent := by
  cases hcp : p.current_player with
  | Sente =>
    rw [Position.make_move_impl, hcp] at h
    rw [make_move_sente_player h]
    rfl
  | Gote =>
    rw [Position.make_move_impl, hcp] at h
    rcases hmk : p.swap_sides.make_move_sente mv.swap_sides with _ | q' <;>
      rw [hmk] at h
    · exact absurd h (by simp)
    · injection h with h
      subst h
      have hq' := make_move_sente_player hmk
      have hsw : q'.swap_sides.current_player = q'.current_player.opponent := rfl
      rw [hsw, hq']

theorem make_move_player {p q : Position} {s : List Char}
    (h : p.make_move s = some q) : q.current_player = p.current_player.opponent := by
  rw [Position.make_move] at h
  rcases hmv : Move.from_fen s with _ | mv <;> rw [hmv] at h
  · exact absurd h (by simp)
  · exact make_move_impl_player h

theorem opponent_ne (c : Color) : c.opponent ≠ c := by
  cases c <;> decide

theorem lookupNode_eq_none {t : Table} {k : List Char} :
    lookupNode t k = none ↔ ¬ k ∈ t.map Prod.fst := by
  induction t with
  | nil => simp [lookupNode]
  | cons kn rest ih =>
    rcases kn with ⟨k', n⟩
    rw [lookupNode]
    by_cases hk : k' = k
    · rw [if_pos hk]
      constructor
      · intro hn
        exact Option.noConfusion hn
      · intro hn
        exact absurd (by rw [List.map_cons, ← hk]; exact List.mem_cons_self _ _) hn
    · rw [if_neg hk, ih, List.map_cons]
      constructor
      · intro hn hm
        rcases List.mem_cons.1 hm with he | hm2
        · exact hk he.symm
        · exact hn hm2
      · intro hn hm
        exact hn (List.mem_cons_of_mem _ hm)

theorem updateNodeAt_keys (t : Table) (k : List Char) (f : Node → Node) :
    (updateNodeAt t k f).map Prod.fst = t.map Prod.fst := by
  rw [updateNodeAt, List.map_map]
  refine List.map_congr_left (fun kn _ => ?_)
  simp only [Function.comp_apply]
  split_ifs <;> rfl

/-- A lost position ends the walk immediately: one playout only updates
the root node's statistics. -/
theorem walkOnce_lost {α : Type} (g : GameOps α) (ev : EvalOps α)
    (policy : Table → α → Option (List Char)) (t : Table) (pos : α)
    (h : g.is_lost pos = true) :
    walkOnce g ev policy t pos
      = updateNode t (g.to_str pos) (ev.evaluate_position pos / ev.saturation) := by
  rw [walkOnce]
  have hw : walkLoop g ev policy 8 t pos [] = some (t, [], pos) := by
    show walkLoop g ev policy (7 + 1) t pos [] = some (t, [], pos)
    rw [walkLoop, if_pos h]
  rw [hw]
  simp only [Option.bind_eq_bind, Option.some_bind, List.nil_append,
    List.reverse_cons, List.reverse_nil, List.nil_append, List.foldlM_cons,
    List.foldlM_nil, if_true]
  cases updateNode t (g.to_str pos) (ev.evaluate_position pos / ev.saturation) <;> rfl

theorem playoutsTable_lost {α : Type} (g : GameOps α) (ev : EvalOps α)
    (policy : Table → α → Option (List Char)) (n : Nat) (pos : α)
    (h : g.is_lost pos = true) :
    ∃ t, playoutsTable g ev policy n pos = some t ∧
      t.map Prod.fst = [g.to_str pos] := by
  rw [playoutsTable]
  have h0 : (makeNode g ev [] pos none).map Prod.fst = [g.to_str pos] := rfl
  have hfold : ∀ (l : List Nat) (t : Table), t.map Prod.fst = [g.to_str pos] →
      ∃ t', l.foldlM (fun t _ => walkOnce g ev policy t pos) t = some t' ∧
        t'.map Prod.fst = [g.to_str pos] := by
    intro l
    induction l with
    | nil =>
      intro t ht
      exact ⟨t, rfl, ht⟩
    | cons a as ih =>
      intro t ht
      rw [List.foldlM_cons, walkOnce_lost g ev policy t pos h]
      rcases hl : lookupNode t (g.to_str pos) with _ | nd
      · have hmem : g.to_str pos ∈ t.map Prod.fst := by
          rw [ht]
          exact List.mem_singleton_self _
        exact absurd hmem (lookupNode_eq_none.1 hl)
      · obtain ⟨t2, ht2, hk2⟩ : ∃ t2, updateNode t (g.to_str pos)
            (ev.evaluate_position pos / ev.saturation) = some t2 ∧
            t2.map Prod.fst = t.map Prod.fst := by
          rw [updateNode, hl]
          exact ⟨_, rfl, updateNodeAt_keys _ _ _⟩
        rw [ht2]
        simp only [Option.bind_eq_bind, Option.some_bind]
        exact ih _ (by rw [hk2]; exact ht)
  exact hfold (List.range (n - 1)) _ h0

/-- C1: on a root position that `is_lost`, no playout walks past the root,
so no child node ever enters the table; `choose_move` returns no move only
when the position also has no legal moves, and otherwise panics inside
`choose_best_by_reward` (the child lookup `unwrap`). -/
theorem C1_amended (ev : EvalOps Position)
    (policy : Table → Position → Option (List Char)) (n : Nat) (pos : Position)
    (h : pos.is_lost = true) :
    (pos.possible_moves = [] →
      mctsChooseMove kidsShogi ev policy n pos = some none) ∧
    (pos.possible_moves ≠ [] →
      mctsChooseMove kidsShogi ev policy n pos = none) := by
  obtain ⟨t, ht, hk⟩ := playoutsTable_lost kidsShogi ev policy n pos h
  have hmcts : mctsChooseMove kidsShogi ev policy n pos
      = chooseBestByReward kidsShogi t pos := by
    rw [mctsChooseMove, ht]
    rfl
  constructor
  · intro hmoves
    have hpm : kidsShogi.possible_moves pos = [] := hmoves
    rw [hmcts, chooseBestByReward, childRewards, hpm]
    rfl
  · intro hmoves
    rcases hms : pos.possible_moves with _ | ⟨mv, rest⟩
    · exact absurd hms hmoves
    have hmem : mv ∈ pos.possible_moves := by
      rw [hms]
      exact List.mem_cons_self _ _
    obtain ⟨q, hq⟩ := Option.isSome_iff_exists.1 (possible_moves_apply pos mv hmem)
    have hqp : q.current_player = pos.current_player.opponent :=
      make_move_player hq
    have hfen : q.to_fen ≠ pos.to_fen := by
      intro he
      have hsame := to_fen_player_inj he
      rw [hqp] at hsame
      exact opponent_ne pos.current_player hsame
    have hlook : lookupNode t (kidsShogi.to_str q) = none := by
      rw [lookupNode_eq_none, hk]
      intro hm
      exact hfen (List.mem_singleton.1 hm)
    have hpm : kidsShogi.possible_moves pos = mv :: rest := hms
    have hq' : kidsShogi.make_move pos mv = some q := hq
    rw [hmcts, chooseBestByReward, childRewards, hpm]
    simp only [List.mapM_cons, Option.bind_eq_bind, hq', Option.some_bind, hlook,
      Option.none_bind]
    rfl

theorem C1_amended_witness :
    mctsChooseMove kidsShogi ⟨fun _ => 0, 1⟩ (fun _ _ => none) 32
      ((Position.from_fen ("3/3/3/L2 b l".toList)).getD Position.initial)
      = none :=
  (C1_amended ⟨fun _ => 0, 1⟩ (fun _ _ => none) 32 _ (by decide)).2 (by decide)

/-- C1: a concrete lost-but-mobile root on which `choose_move` panics. -/
theorem C1_counterexample :
    ((Position.from_fen ("3/3/3/L2 b l".toList)).map (fun p =>
      (p.is_lost, p.possible_moves.isEmpty,
        mctsChooseMove kidsShogi ⟨fun _ => 0, 1⟩ (fun _ _ => none) 32 p)))
      = some (true, false, none) := by decide

/-! ## C7: the softmax move sampler -/

theorem le_foldl_add : ∀ (l : List ℚ), (∀ v ∈ l, 0 ≤ v) →
    ∀ acc : ℚ, acc ≤ l.foldl (· + ·) acc
  | [], _, acc => le_refl acc
  | a :: as, h, acc => by
    have ha : 0 ≤ a := h a (List.mem_cons_self _ _)
    have h2 := le_foldl_add as (fun v hv => h v (List.mem_cons_of_mem _ hv)) (acc + a)
    rw [List.foldl_cons]
    linarith

theorem foldl_add_pos {l : List ℚ} (hpos : ∀ v ∈ l, 0 < v) (hne : l ≠ []) :
    0 < l.foldl (· + ·) 0 := by
  rcases l with _ | ⟨a, as⟩
  · exact absurd rfl hne
  · rw [List.foldl_cons]
    have ha : 0 < a := hpos a (List.mem_cons_self _ _)
    have h2 := le_foldl_add as
      (fun v hv => le_of_lt (hpos v (List.mem_cons_of_mem _ hv))) (0 + a)
    linarith

theorem foldl_add_le_mul : ∀ (l : List ℚ) (m : ℚ), (∀ v ∈ l, v ≤ m) →
    ∀ acc : ℚ, l.foldl (· + ·) acc ≤ acc + l.length * m
  | [], m, _, acc => by simp
  | a :: as, m, h, acc => by
    rw [List.foldl_cons]
    have h2 := foldl_add_le_mul as m (fun v hv => h v (List.mem_cons_of_mem _ hv)) (acc + a)
    have ha : a ≤ m := h a (List.mem_cons_self _ _)
    have hcast : ((a :: as).length : ℚ) = (as.length : ℚ) + 1 := by
      rw [List.length_cons]
      push_cast
      ring
    rw [hcast]
    linarith

theorem exists_list_max : ∀ (l : List ℚ), l ≠ [] → ∃ v ∈ l, ∀ x ∈ l, x ≤ v
  | [], h => absurd rfl h
  | [a], _ => ⟨a, List.mem_singleton_self a, by
      intro x hx
      rw [List.mem_singleton.1 hx]⟩
  | a :: b :: bs, _ => by
    obtain ⟨v, hv, hmax⟩ := exists_list_max (b :: bs) (by simp)
    by_cases hav : a ≤ v
    · refine ⟨v, List.mem_cons_of_mem _ hv, ?_⟩
      intro x hx
      rcases List.mem_cons.1 hx with rfl | hx2
      · exact hav
      · exact hmax x hx2
    · refine ⟨a, List.mem_cons_self _ _, ?_⟩
      intro x hx
      rcases List.mem_cons.1 hx with rfl | hx2
      · exact le_refl x
      · exact le_trans (hmax x hx2) (le_of_not_le hav)

theorem list_int_sum_nonneg : ∀ (l : List Int), (∀ w ∈ l, 0 ≤ w) → 0 ≤ l.sum
  | [], _ => le_refl 0
  | a :: as, h => by
    rw [List.sum_cons]
    have h2 := list_int_sum_nonneg as (fun x hx => h x (List.mem_cons_of_mem _ hx))
    have ha := h a (List.mem_cons_self _ _)
    linarith

theorem list_int_sum_pos : ∀ (l : List Int), (∀ w ∈ l, 0 ≤ w) →
    ∀ w ∈ l, 0 < w → 0 < l.sum
  | [], _, w, hw, _ => absurd hw (List.not_mem_nil w)
  | a :: as, h, w, hw, hwpos => by
    rw [List.sum_cons]
    have has : ∀ x ∈ as, 0 ≤ x := fun x hx => h x (List.mem_cons_of_mem _ hx)
    have hs2 := list_int_sum_nonneg as has
    rcases List.mem_cons.1 hw with rfl | hmem
    · linarith
    · have h3 := list_int_sum_pos as has w hmem hwpos
      have ha := h a (List.mem_cons_self _ _)
      linarith

theorem exists_pos_of_sum_pos : ∀ (l : List Int), (∀ w ∈ l, 0 ≤ w) → 0 < l.sum →
    ∃ w ∈ l, 0 < w
  | [], _, hs => absurd hs (by simp)
  | a :: as, h, hs => by
    by_cases ha : 0 < a
    · exact ⟨a, List.mem_cons_self _ _, ha⟩
    · have ha0 : a = 0 := le_antisymm (not_lt.1 ha) (h a (List.mem_cons_self _ _))
      rw [List.sum_cons, ha0, zero_add] at hs
      obtain ⟨w, hw, hwp⟩ := exists_pos_of_sum_pos as
        (fun x hx => h x (List.mem_cons_of_mem _ hx)) hs
      exact ⟨w, List.mem_cons_of_mem _ hw, hwp⟩

theorem truncToI32_nonneg {q : ℚ} (h : 0 ≤ q) : 0 ≤ truncToI32 q := by
  rw [truncToI32, if_neg (not_lt.2 h)]
  have hf : (0:ℤ) ≤ q.floor := Rat.le_floor.2 (by exact_mod_cast h)
  have h1 : (0:ℤ) ≤ min (2 ^ 31 - 1) q.floor := le_min (by norm_num) hf
  exact le_trans h1 (le_max_right _ _)

theorem truncToI32_pos {q : ℚ} (h : 1 ≤ q) : 0 < truncToI32 q := by
  rw [truncToI32, if_neg (not_lt.2 (le_trans zero_le_one h))]
  have hf : (1:ℤ) ≤ q.floor := Rat.le_floor.2 (by exact_mod_cast h)
  have h1 : (1:ℤ) ≤ min (2 ^ 31 - 1) q.floor := le_min (by norm_num) hf
  exact lt_of_lt_of_le one_pos (le_trans h1 (le_max_right _ _))

theorem mapM_some_props {α β : Type} (f : α → Option β) :
    ∀ (l : List α), (∀ a ∈ l, (f a).isSome = true) →
    ∃ vs : List β, l.mapM f = some vs ∧ vs.length = l.length ∧
      ∀ v ∈ vs, ∃ a ∈ l, f a = some v
  | [], _ => ⟨[], rfl, rfl, by
      intro v hv
      exact absurd hv (List.not_mem_nil v)⟩
  | a :: as, h => by
    obtain ⟨b, hb⟩ := Option.isSome_iff_exists.1 (h a (List.mem_cons_self _ _))
    obtain ⟨vs, hvs, hlen2, hmem2⟩ :=
      mapM_some_props f as (fun x hx => h x (List.mem_cons_of_mem _ hx))
    refine ⟨b :: vs, ?_, ?_, ?_⟩
    · rw [List.mapM_cons, hb, hvs]
      rfl
    · rw [List.length_cons, List.length_cons, hlen2]
    · intro v hv
      rcases List.mem_cons.1 hv with rfl | hv2
      · exact ⟨a, List.mem_cons_self _ _, hb⟩
      · obtain ⟨x, hx, hfx⟩ := hmem2 v hv2
        exact ⟨x, List.mem_cons_of_mem _ hx, hfx⟩

/-- The rng draw used by the C7 witness: the first positive weight. -/
def pickFirstPos (ws : List Int) : Nat := ws.findIdx (fun w => 0 < w)

theorem findIdx_pos_spec : ∀ (l : List Int), (∃ w ∈ l, 0 < w) →
    l.findIdx (fun w => 0 < w) < l.length ∧
      0 < l.getD (l.findIdx (fun w => 0 < w)) 0
  | [], h => by
    obtain ⟨w, hw, _⟩ := h
    exact absurd hw (List.not_mem_nil w)
  | a :: as, h => by
    rcases hd : (decide (0 < a)) with _ | _
    · have ha : ¬ 0 < a := of_decide_eq_false hd
      have hex : ∃ w ∈ as, 0 < w := by
        obtain ⟨w, hw, hwp⟩ := h
        rcases List.mem_cons.1 hw with rfl | hmem
        · exact absurd hwp ha
        · exact ⟨w, hmem, hwp⟩
      obtain ⟨ih1, ih2⟩ := findIdx_pos_spec as hex
      have hfi : (a :: as).findIdx (fun w => 0 < w)
          = as.findIdx (fun w => 0 < w) + 1 := by
        simp only [List.findIdx_cons, hd, cond_false]
      rw [hfi]
      constructor
      · rw [List.length_cons]
        omega
      · rw [List.getD_cons_succ]
        exact ih2
    · have ha : 0 < a := of_decide_eq_true hd
      have hfi : (a :: as).findIdx (fun w => 0 < w) = 0 := by
        simp only [List.findIdx_cons, hd, cond_true]
      rw [hfi]
      refine ⟨Nat.succ_pos _, ?_⟩
      rw [List.getD_cons_zero]
      exact ha

theorem pickFirstPos_spec (ws : List Int) ( _hne : ws ≠ []) (hnn : ∀ w ∈ ws, 0 ≤ w)
    (hsum : 0 < ws.sum) :
    pickFirstPos ws < ws.length ∧ 0 < ws.getD (pickFirstPos ws) 0 :=
  findIdx_pos_spec ws (exists_pos_of_sum_pos ws hnn hsum)

/-- C7: with no legal moves `SoftMaxStrategy::choose_move` returns no move;
with at least one legal move (and a positive exponential, a sampler honouring
the `WeightedIndex` contract, and at most 10^6 moves) the quantized weight
vector is nonnegative with a positive entry, the `WeightedIndex` construction
succeeds, and the selected move's quantized weight is positive — a
zero-weight move is never chosen. -/
theorem C7_softmax_choose_move (ev : EvalOps Position) (expF : ℚ → ℚ)
    (pick : List Int → Nat) (softness : ℚ) (pos : Position)
    (hexp : ∀ x, 0 < expF x)
    (hpick : ∀ ws : List Int, ws ≠ [] → (∀ w ∈ ws, 0 ≤ w) → 0 < ws.sum →
      pick ws < ws.length ∧ 0 < ws.getD (pick ws) 0)
    (hlen : pos.possible_moves.length ≤ 1000000) :
    (softmaxChooseMove kidsShogi ev expF pick softness pos = some none ↔
      pos.possible_moves = []) ∧
    (pos.possible_moves ≠ [] →
      ∃ ws : List Int,
        softmaxWeights kidsShogi ev expF softness pos = some ws ∧
        (∀ w ∈ ws, 0 ≤ w) ∧ (∃ w ∈ ws, 0 < w) ∧
        weightedIndexValid ws = some () ∧
        pick ws < pos.possible_moves.length ∧
        0 < ws.getD (pick ws) 0 ∧
        softmaxChooseMove kidsShogi ev expF pick softness pos
          = some (some (pos.possible_moves.getD (pick ws) []))) := by
  by_cases hm : pos.possible_moves = []
  · have he : (kidsShogi.possible_moves pos).isEmpty = true := by
      have h2 : kidsShogi.possible_moves pos = [] := hm
      rw [h2]
      rfl
    have hres0 : softmaxChooseMove kidsShogi ev expF pick softness pos = some none := by
      simp only [softmaxChooseMove]
      rw [if_pos he]
    refine ⟨⟨fun _ => hm, fun _ => hres0⟩, fun hne0 => absurd hm hne0⟩
  · have hnil : pos.possible_moves ≠ [] := hm
    have hne : (kidsShogi.possible_moves pos).isEmpty = false := by
      rcases hpm : pos.possible_moves with _ | ⟨a, as⟩
      · exact absurd hpm hm
      · have h2 : kidsShogi.possible_moves pos = a :: as := hpm
        rw [h2]
        rfl
    have hall : ∀ mv ∈ kidsShogi.possible_moves pos,
        ((kidsShogi.make_move pos mv).map
          (fun q => expF (-(ev.evaluate_position q) * softness))).isSome = true := by
      intro mv hmv
      obtain ⟨q, hq⟩ := Option.isSome_iff_exists.1 (possible_moves_apply pos mv hmv)
      have hq2 : kidsShogi.make_move pos mv = some q := hq
      rw [hq2]
      rfl
    obtain ⟨values, hvals, hvlen, hvmem⟩ := mapM_some_props _ _ hall
    have hvpos : ∀ v ∈ values, 0 < v := by
      intro v hv
      obtain ⟨a, _, hfa⟩ := hvmem v hv
      rcases hma : kidsShogi.make_move pos a with _ | q
      · rw [hma] at hfa
        exact absurd hfa (by simp)
      · rw [hma] at hfa
        injection hfa with hfa
        rw [← hfa]
        exact hexp _
    have hvne : values ≠ [] := by
      intro hv0
      rw [hv0] at hvlen
      exact hnil (List.length_eq_zero.1 hvlen.symm)
    have hSpos : 0 < values.foldl (· + ·) 0 := foldl_add_pos hvpos hvne
    obtain ⟨vmax, hvmaxmem, hvmax⟩ := exists_list_max values hvne
    have hvmaxpos : 0 < vmax := hvpos vmax hvmaxmem
    have hsum_le := foldl_add_le_mul values vmax hvmax 0
    have hlen2 : (kidsShogi.possible_moves pos).length ≤ 1000000 := hlen
    have hlen_le : (values.length : ℚ) ≤ 1000000 := by
      rw [hvlen]
      exact_mod_cast hlen2
    have hkey : (1:ℚ) ≤ vmax * 1000000 / values.foldl (· + ·) 0 := by
      rw [le_div_iff₀ hSpos, one_mul]
      calc values.foldl (· + ·) 0 ≤ 0 + values.length * vmax := hsum_le
      _ = values.length * vmax := by ring
      _ ≤ 1000000 * vmax := mul_le_mul_of_nonneg_right hlen_le (le_of_lt hvmaxpos)
      _ = vmax * 1000000 := by ring
    have hws : softmaxWeights kidsShogi ev expF softness pos
        = some (values.map (fun v =>
            truncToI32 (v * 1000000 / values.foldl (· + ·) 0))) := by
      rw [softmaxWeights, hvals]
      rfl
    set W := values.map (fun v => truncToI32 (v * 1000000 / values.foldl (· + ·) 0))
      with hW
    have hWnn : ∀ w ∈ W, 0 ≤ w := by
      intro w hw
      rw [hW] at hw
      obtain ⟨v, hv, rfl⟩ := List.mem_map.1 hw
      exact truncToI32_nonneg
        (le_of_lt (div_pos (mul_pos (hvpos v hv) (by norm_num)) hSpos))
    have hw0mem : truncToI32 (vmax * 1000000 / values.foldl (· + ·) 0) ∈ W := by
      rw [hW]
      exact List.mem_map_of_mem _ hvmaxmem
    have hw0pos : 0 < truncToI32 (vmax * 1000000 / values.foldl (· + ·) 0) :=
      truncToI32_pos hkey
    have hWne : W ≠ [] := by
      rw [hW]
      intro h0
      exact hvne (List.map_eq_nil_iff.1 h0)
    have hWsum : 0 < W.sum := list_int_sum_pos W hWnn _ hw0mem hw0pos
    have hwiv : weightedIndexValid W = some () := by
      rw [weightedIndexValid, if_pos ⟨hWne, hWnn, hWsum⟩]
    obtain ⟨hplt, hpw⟩ := hpick W hWne hWnn hWsum
    have hWlen : W.length = (kidsShogi.possible_moves pos).length := by
      rw [hW, List.length_map, hvlen]
    have hplt2 : pick W < (kidsShogi.possible_moves pos).length := by
      rw [← hWlen]
      exact hplt
    have hres : softmaxChooseMove kidsShogi ev expF pick softness pos
        = some (some ((kidsShogi.possible_moves pos).getD (pick W) [])) := by
      simp only [softmaxChooseMove, hne, Bool.false_eq_true, if_false, hws,
        Option.bind_eq_bind, Option.some_bind, hwiv]
      rw [dif_pos hplt2]
      rw [List.get_eq_getElem, List.getD_eq_getElem _ _ hplt2]
      rfl
    refine ⟨⟨fun heq => ?_, fun h0 => absurd h0 hnil⟩, fun _ =>
      ⟨W, hws, hWnn, ⟨_, hw0mem, hw0pos⟩, hwiv, hplt2, hpw, hres⟩⟩
    rw [hres] at heq
    injection heq with heq
    exact Option.noConfusion heq

theorem C7_softmax_choose_move_witness :
    ∃ ws : List Int,
      softmaxWeights kidsShogi ⟨fun _ => 0, 1⟩ (fun _ => 1) 1 Position.initial
        = some ws ∧
      (∀ w ∈ ws, 0 ≤ w) ∧ (∃ w ∈ ws, 0 < w) ∧
      weightedIndexValid ws = some () ∧
      pickFirstPos ws < Position.initial.possible_moves.length ∧
      0 < ws.getD (pickFirstPos ws) 0 ∧
      softmaxChooseMove kidsShogi ⟨fun _ => 0, 1⟩ (fun _ => 1) pickFirstPos 1
          Position.initial
        = some (some (Position.initial.possible_moves.getD (pickFirstPos ws) [])) :=
  (C7_softmax_choose_move ⟨fun _ => 0, 1⟩ (fun _ => 1) pickFirstPos 1 Position.initial
      (fun _ => one_pos) pickFirstPos_spec (by decide)).2 (by decide)


end KS
